import Mathlib

/-!
Verification of the JMAP client engine (`Connection.js`, `Message.js`,
`Thread.js`, `CalendarEvent.js`, `Sequence.js`/`connections.js`) against its
natural-language specification.

JSON values are modelled by the mutual inductive `JValue`/`JItems`/`JFields`;
JavaScript objects are insertion-ordered association lists (matching
`for ... in` iteration order for the non-integer keys that occur throughout
this code base).  A JavaScript variable that may hold `undefined` is modelled
as `Option JValue` with `none` for `undefined`; the JSON literal `null` is
`JValue.null`.  The mutual shape (rather than `List`-nested constructors)
keeps every recursive function structurally recursive, so all definitions
evaluate inside the kernel.
-/

namespace JmapJs

mutual

/-- A JSON value.  Objects are insertion-ordered field lists, exactly the key
order a JavaScript object would enumerate for non-integer keys. -/
inductive JValue : Type where
  | null : JValue
  | bool : Bool → JValue
  | num : Int → JValue
  | str : String → JValue
  | arr : JItems → JValue
  | obj : JFields → JValue

/-- The elements of a JSON array. -/
inductive JItems : Type where
  | nil : JItems
  | cons : JValue → JItems → JItems

/-- The fields of a JSON object, in insertion order. -/
inductive JFields : Type where
  | nil : JFields
  | cons : String → JValue → JFields → JFields

end

namespace JValue

/-- JavaScript truthiness of a `JValue` (`NaN` and `-0` are outside the
model; numbers are integers). -/
def truthy : JValue → Bool
  | .null => false
  | .bool b => b
  | .num n => n != 0
  | .str s => s != ""
  | .arr _ => true
  | .obj _ => true

/-- Is this value the JSON literal `null`? -/
def isNull : JValue → Bool
  | .null => true
  | _ => false

end JValue

namespace JItems

/-- Number of elements. -/
def length : JItems → Nat
  | .nil => 0
  | .cons _ tl => tl.length + 1

/-- Element at an index. -/
def get? : JItems → Nat → Option JValue
  | .nil, _ => none
  | .cons v _, 0 => some v
  | .cons _ tl, n + 1 => tl.get? n

/-- Replace the element at an index (JavaScript `arr[i] = v` on an existing
index). -/
def set : JItems → Nat → JValue → JItems
  | .nil, _, _ => .nil
  | .cons _ tl, 0, v => .cons v tl
  | .cons w tl, n + 1, v => .cons w (tl.set n v)

/-- View as a Lean list. -/
def toList : JItems → List JValue
  | .nil => []
  | .cons v tl => v :: tl.toList

end JItems

namespace JFields

/-- First-match lookup: JavaScript object property read (objects never hold
duplicate keys). -/
def getKey : JFields → String → Option JValue
  | .nil, _ => none
  | .cons k v tl, key => if k = key then some v else tl.getKey key

/-- Does the object own this key (JavaScript `key in obj`)? -/
def hasKey (fields : JFields) (key : String) : Bool :=
  (fields.getKey key).isSome

/-- JavaScript property assignment `obj[key] = v`: replace in place if the
key exists, else append (new keys enumerate last). -/
def setKey : JFields → String → JValue → JFields
  | .nil, key, v => .cons key v .nil
  | .cons k w tl, key, v =>
      if k = key then .cons k v tl else .cons k w (tl.setKey key v)

/-- JavaScript `delete obj[key]`. -/
def delKey : JFields → String → JFields
  | .nil, _ => .nil
  | .cons k w tl, key => if k = key then tl else .cons k w (tl.delKey key)

/-- The keys, in enumeration order. -/
def keys : JFields → List String
  | .nil => []
  | .cons k _ tl => k :: tl.keys

/-- Number of fields (`Object.keys( obj ).length` for duplicate-free
fields). -/
def length : JFields → Nat
  | .nil => 0
  | .cons _ _ tl => tl.length + 1

/-- View as a Lean association list. -/
def toList : JFields → List (String × JValue)
  | .nil => []
  | .cons k v tl => (k, v) :: tl.toList

/-- No key occurs twice (always true of a JavaScript object). -/
def nodupKeys : JFields → Bool
  | .nil => true
  | .cons k _ tl => !tl.hasKey k && tl.nodupKeys

end JFields

/-- Truthiness of a possibly-`undefined` JavaScript value. -/
def optTruthy : Option JValue → Bool
  | none => false
  | some v => v.truthy

/-- JavaScript property read `v[key]` on an arbitrary value.  On plain
objects this is key lookup; on arrays, canonical numeric indices and
`length`.  On primitives JavaScript yields `undefined` for every key a patch
path can name (the exotic own properties of strings, such as `length` and
character indices, are not modelled; no code path under verification reads
them). -/
def lookupProp : JValue → String → Option JValue
  | .obj fields, key => fields.getKey key
  | .arr xs, key =>
      if key = "length" then some (.num xs.length)
      else
        match key.toNat? with
        | some i => if toString i = key then xs.get? i else none
        | none => none
  | _, _ => none

/-- `o[key]` where `o` itself may be `undefined` (reading a property of
`undefined` cannot occur in the modelled code paths: the callers guard with
truthiness first, so `none` simply propagates). -/
def olookup (o : Option JValue) (key : String) : Option JValue :=
  o.bind (fun v => lookupProp v key)

/-- The own enumerable keys of a value, in `for ... in` order: object keys
in insertion order, array indices; primitives enumerate nothing. -/
def ownKeys : JValue → List String
  | .obj fields => fields.keys
  | .arr xs => (List.range xs.length).map toString
  | _ => []

/-- `ownKeys` of a possibly-`undefined` value. -/
def ownKeysO : Option JValue → List String
  | none => []
  | some v => ownKeys v

/-- Rebuild a container with the value at `key` replaced (used to model
in-place mutation of a sub-object when a patch path descends).  Only called
where `lookupProp` succeeded, so the array branch always hits a canonical
index; on any other shape the value is returned unchanged. -/
def setProp (v : JValue) (key : String) (child : JValue) : JValue :=
  match v with
  | .obj fields => .obj (fields.setKey key child)
  | .arr xs =>
      (match key.toNat? with
       | some i => if toString i = key then .arr (xs.set i child) else .arr xs
       | none => .arr xs)
  | other => other

/-! ## `O.isEqual` (Overture collaborator)

Structural deep equality as implemented by Overture and relied on by
`makePatches`: primitives compare by `===`, arrays by length plus pointwise
equality, plain objects by key count plus per-key equality (a key of the left
object that is missing on the right makes its comparison fail).  Mixed types,
and array versus plain object, are unequal. -/

mutual

/-- `O.isEqual( a, b )` on JSON values. -/
def isEqual : JValue → JValue → Bool
  | .null, .null => true
  | .bool x, .bool y => x == y
  | .num x, .num y => x == y
  | .str x, .str y => x == y
  | .arr xs, .arr ys => (xs.length == ys.length) && isEqualItems xs ys
  | .obj fs, .obj gs => (fs.length == gs.length) && isEqualFields fs gs
  | _, _ => false

/-- Pointwise comparison of array elements (the caller has already compared
lengths, mirroring the indexed loop in `O.isEqual`). -/
def isEqualItems : JItems → JItems → Bool
  | .nil, _ => true
  | .cons _ _, .nil => false
  | .cons v tl, .cons w tlw => isEqual v w && isEqualItems tl tlw

/-- `for ( key in a ) { if ( !isEqual( a[ key ], b[ key ] ) ) ... }`. -/
def isEqualFields : JFields → JFields → Bool
  | .nil, _ => true
  | .cons k v tl, gs =>
      (match gs.getKey k with
       | some w => isEqual v w
       | none => false) && isEqualFields tl gs

end

/-- `O.isEqual` lifted to possibly-`undefined` arguments (`undefined` equals
only itself, by `a === b`). -/
def isEqualO : Option JValue → Option JValue → Bool
  | none, none => true
  | some a, some b => isEqual a b
  | _, _ => false

/-! ## JSON-Pointer component escaping (`Connection.js` lines 45 and 66)

Encoding replaces every `~` by `~0` and then every `/` by `~1`
(`key.replace( /~/g, '~0' ).replace( /\//g, '~1' )`); decoding replaces every
`~1` by `/` and then every `~0` by `~`
(`key.replace( /~1/g, '/' ).replace( /~0/g, '~' )`).  The `String.replace`
calls scan left to right without overlap, which the functions below mirror on
character lists (the two-character patterns use an explicit pending-tilde flag
so that recursion stays structural). -/

/-- Replace every `~` by `~0` (first encoding substitution). -/
def encTilde : List Char → List Char
  | [] => []
  | c :: cs => if c = '~' then '~' :: '0' :: encTilde cs else c :: encTilde cs

/-- Replace every `/` by `~1` (second encoding substitution). -/
def encSlash : List Char → List Char
  | [] => []
  | c :: cs => if c = '/' then '~' :: '1' :: encSlash cs else c :: encSlash cs

/-- Replace every `~1` by `/`, scanning left to right.  The flag records a
pending `~` that has not yet found its `1`. -/
def decSlashAux : Bool → List Char → List Char
  | false, [] => []
  | true, [] => ['~']
  | false, c :: cs => if c = '~' then decSlashAux true cs else c :: decSlashAux false cs
  | true, c :: cs =>
      if c = '1' then '/' :: decSlashAux false cs
      else if c = '~' then '~' :: decSlashAux true cs
      else '~' :: c :: decSlashAux false cs

/-- Replace every `~0` by `~`, scanning left to right. -/
def decTildeAux : Bool → List Char → List Char
  | false, [] => []
  | true, [] => ['~']
  | false, c :: cs => if c = '~' then decTildeAux true cs else c :: decTildeAux false cs
  | true, c :: cs =>
      if c = '0' then '~' :: decTildeAux false cs
      else if c = '~' then '~' :: decTildeAux true cs
      else '~' :: c :: decTildeAux false cs

/-- Path-component encoding, as performed by `makePatches`:
`key.replace( /~/g, '~0' ).replace( /\//g, '~1' )`. -/
def encodeKey (k : String) : String :=
  String.mk (encSlash (encTilde k.toList))

/-- Path-component decoding, as performed by `applyPatch` and
`isValidPatch`: `key.replace( /~1/g, '/' ).replace( /~0/g, '~' )`. -/
def decodeKey (k : String) : String :=
  String.mk (decTildeAux false (decSlashAux false k.toList))

/-! ## The patch codec (`Connection.js` lines 31-88) -/

/-- Split a character list at every `/`.  `applyPatch`'s loop peels one
component per iteration with `indexOf( '/' )` and `slice`; splitting the
whole path up front performs the identical decomposition. -/
def splitOnSlash : List Char → List (List Char)
  | [] => [[]]
  | c :: cs =>
      if c = '/' then [] :: splitOnSlash cs
      else
        match splitOnSlash cs with
        | [] => [[c]]
        | g :: gs => (c :: g) :: gs

/-- The walk of `applyPatch` over the already-split path components.  Each
component is unescaped as it is visited.  A falsy intermediate value aborts
silently (`if ( !object ) return`), modelled by returning the tree
unchanged.  The terminal step assigns (`object[ key ] = patch`) or, for a
`null` patch, deletes (`delete object[ key ]`).  A terminal step landing on
a non-object is `none`: in the source (strict mode) assigning a property of
a primitive throws a `TypeError`, and element assignment on an array, which
the code treats as atomic, would build a value outside the JSON model. -/
def applyComps (object : JValue) (comps : List String) (patch : JValue) :
    Option JValue :=
  if !object.truthy then some object
  else
    match comps with
    | [] => some object
    | [k] =>
        let key := decodeKey k
        match object with
        | .obj fields =>
            if patch.isNull then some (.obj (fields.delKey key))
            else some (.obj (fields.setKey key patch))
        | _ => none
    | k :: k2 :: rest =>
        let key := decodeKey k
        match lookupProp object key with
        | some child =>
            (applyComps child (k2 :: rest) patch).map (setProp object key)
        | none => some object

/-- `applyPatch( object, path, patch )`.  Mutation of the object graph is
modelled by rebuilding the tree along the walked path. -/
def applyPatch (object : JValue) (path : String) (patch : JValue) :
    Option JValue :=
  applyComps object ((splitOnSlash path.toList).map String.mk) patch

/-- Apply every `(path → value)` entry of a patch list in order. -/
def applyPatches (object : JValue) (patches : List (String × JValue)) :
    Option JValue :=
  patches.foldlM (fun o pv => applyPatch o pv.1 pv.2) object

/-- The second loop of `makePatches`: keys of `original` that are missing
from `current` recurse with the literal `null`
(`makePatches( ..., original[ key ], null )`).  Since `null` is falsy, that
inner call deterministically reduces to its final `else` branch —
`if ( !isEqual( original, null ) ) patches[ path ] = null` — which is
inlined here so that the main recursion stays structural in `current`. -/
def deletionPatches (path : String) (original : Option JValue)
    (cfields : JFields) : List (String × JValue) :=
  ((ownKeysO original).filter (fun k => !cfields.hasKey k)).filterMap
    (fun k =>
      if isEqualO (olookup original k) (some JValue.null) then none
      else some (path ++ "/" ++ encodeKey k, JValue.null))

mutual

/-- `makePatches( path, patches, original, current )` for a present
`current`.  The JS accumulates into a shared `patches` object; since every
emitted path is distinct, collecting the entries in emission order into a
list is equivalent.  The recursion guard is
`original && current && typeof current === 'object' &&
!( current instanceof Array )`. -/
def makePatchesV (path : String) (original : Option JValue) :
    JValue → List (String × JValue)
  | .obj cfields =>
      if optTruthy original then
        makePatchesFields path original cfields ++
        deletionPatches path original cfields
      else
        if isEqualO original (some (.obj cfields)) then []
        else [(path, .obj cfields)]
  | c =>
      if isEqualO original (some c) then [] else [(path, c)]

/-- `for ( key in current ) { didPatch = makePatches( path + '/' + key, ... ) }`. -/
def makePatchesFields (path : String) (original : Option JValue) :
    JFields → List (String × JValue)
  | .nil => []
  | .cons k v tl =>
      makePatchesV (path ++ "/" ++ encodeKey k) (olookup original k) v ++
      makePatchesFields path original tl

end

/-- `makePatches` on possibly-`undefined` arguments, as called from
`makeUpdate` (`record[ key ]` may be `undefined`).  An `undefined` `current`
fails the recursion guard and lands in the `else` branch, where the emitted
value is `current !== undefined ? current : null`. -/
def makePatches (path : String) (original current : Option JValue) :
    List (String × JValue) :=
  match current with
  | some c => makePatchesV path original c
  | none => if isEqualO original none then [] else [(path, JValue.null)]

/-! ## Component-level view of the patch codec

`makePatches` emits string paths built as `path + '/' + encodeKey key`, and
`applyPatch` splits a path at `/` and decodes each component.  To reason
about the round trip we mirror both sides at the level of raw (unescaped)
component lists and prove the string level equal to the mirror under the
escaping lemmas. -/

mutual

/-- Size of a value, for strong induction. -/
def jsize : JValue → Nat
  | .null => 1
  | .bool _ => 1
  | .num _ => 1
  | .str _ => 1
  | .arr xs => jsizeItems xs + 1
  | .obj fs => jsizeFields fs + 1

def jsizeItems : JItems → Nat
  | .nil => 0
  | .cons v tl => jsize v + jsizeItems tl + 1

def jsizeFields : JFields → Nat
  | .nil => 0
  | .cons _ v tl => jsize v + jsizeFields tl + 1

end

/-- `deletionPatches`, emitting raw relative component paths. -/
def deletionPatchesC (original : Option JValue) (cfields : JFields) :
    List (List String × JValue) :=
  ((ownKeysO original).filter (fun k => !cfields.hasKey k)).filterMap
    (fun k =>
      if isEqualO (olookup original k) (some JValue.null) then none
      else some ([k], JValue.null))

mutual

/-- `makePatchesV`, emitting raw relative component paths instead of escaped
string paths. -/
def patchesCV (original : Option JValue) :
    JValue → List (List String × JValue)
  | .obj cfields =>
      if optTruthy original then
        patchesCFields original cfields ++ deletionPatchesC original cfields
      else
        if isEqualO original (some (.obj cfields)) then []
        else [([], .obj cfields)]
  | c =>
      if isEqualO original (some c) then [] else [([], c)]

/-- `makePatchesFields` at component level: sub-paths get the field key
consed on. -/
def patchesCFields (original : Option JValue) :
    JFields → List (List String × JValue)
  | .nil => []
  | .cons k v tl =>
      (patchesCV (olookup original k) v).map (fun pr => (k :: pr.1, pr.2)) ++
      patchesCFields original tl

end

/-- Rebuild the string path from a base and raw components, exactly as the
recursion of `makePatches` does. -/
def joinPath (path : String) : List String → String
  | [] => path
  | k :: ks => joinPath (path ++ "/" ++ encodeKey k) ks

/-- `applyComps` on raw components (no unescaping). -/
def applyCompsRaw (object : JValue) (comps : List String) (patch : JValue) :
    Option JValue :=
  if !object.truthy then some object
  else
    match comps with
    | [] => some object
    | [k] =>
        match object with
        | .obj fields =>
            if patch.isNull then some (.obj (fields.delKey k))
            else some (.obj (fields.setKey k patch))
        | _ => none
    | k :: k2 :: rest =>
        match lookupProp object k with
        | some child =>
            (applyCompsRaw child (k2 :: rest) patch).map (setProp object k)
        | none => some object

/-- Apply raw-component patches in order. -/
def applyListRaw (object : JValue) (ps : List (List String × JValue)) :
    Option JValue :=
  ps.foldlM (fun o pr => applyCompsRaw o pr.1 pr.2) object

/-! ## Semantic side conditions for the round trip -/

/-- A key that survives both path joining and component decoding untouched:
no `/` (so it is a single component) and no `~` (so decoding is the
identity).  Every JMAP attribute name used with `makeUpdate` is of this
form. -/
def pathSafe (k : String) : Bool :=
  k.toList.all (fun c => c ≠ '/' && c ≠ '~')

mutual

/-- No `null` occurs as a direct object-member value (or as the value
itself).  Arrays are exempt: the codec treats them atomically, so `null`
elements inside arrays never meet the `delete`-vs-assign ambiguity. -/
def nullFree : JValue → Bool
  | .null => false
  | .obj fs => nullFreeFields fs
  | _ => true

def nullFreeFields : JFields → Bool
  | .nil => true
  | .cons _ v tl => nullFree v && nullFreeFields tl

end

mutual

/-- Well-formed JSON value: object keys are duplicate-free throughout (true
of every value produced by `JSON.parse` or a JavaScript object literal). -/
def wfJ : JValue → Bool
  | .obj fs => fs.nodupKeys && wfFields fs
  | .arr xs => wfItems xs
  | _ => true

def wfItems : JItems → Bool
  | .nil => true
  | .cons v tl => wfJ v && wfItems tl

def wfFields : JFields → Bool
  | .nil => true
  | .cons _ v tl => wfJ v && wfFields tl

end

/-- Combined side condition on one side of a diff. -/
def good (v : JValue) : Bool :=
  nullFree v && wfJ v

/-- `good` on a possibly-`undefined` value (`undefined` is fine: the codec
emits a whole-value assignment for it). -/
def optGood : Option JValue → Bool
  | none => true
  | some v => good v

mutual

/-- Compatibility of the original (left) value with the current (right)
value: wherever the right side is a plain object, the left side at the same
path must be a plain object too, falsy, or absent.  (If the left side were a
truthy primitive or an array, `makePatches` would recurse — its guard only
inspects the right side — and the emitted patches would try to descend
through a non-object on application.) -/
def compat (original : Option JValue) : JValue → Bool
  | .obj cf =>
      match original with
      | some (.obj ofs) => compatFields ofs cf
      | some v => !v.truthy
      | none => true
  | _ => true

def compatFields (ofs : JFields) : JFields → Bool
  | .nil => true
  | .cons k v tl => compat (ofs.getKey k) v && compatFields ofs tl

end

/-- The characters of a component tail as appended by `joinPath`: a `/`
separator followed by the escaped component, for each component. -/
def flatComps : List String → List Char
  | [] => []
  | k :: ks => '/' :: ((encodeKey k).toList ++ flatComps ks)

/-- Is the value a plain object? -/
def isObj : JValue → Bool
  | .obj _ => true
  | _ => false

/-- Is the value a JSON primitive (not an object, not an array)? -/
def isPrimitive : JValue → Bool
  | .null => true
  | .bool _ => true
  | .num _ => true
  | .str _ => true
  | _ => false

/-- Counterexample input for claim C1: the object `{ x: 1 }`. -/
def cexOriginal : JValue := .obj (.cons "x" (.num 1) .nil)

/-- Counterexample input for claim C1: the object `{ x: 2 }`. -/
def cexCurrent : JValue := .obj (.cons "x" (.num 2) .nil)

/-- Witness input for claim C1: the object `{ $seen: true }` (a `keywords`
value before an update). -/
def witOriginal : JValue := .obj (.cons "$seen" (.bool true) .nil)

/-- Witness input for claim C1: the empty object (the same `keywords` value
after the update). -/
def witCurrent : JValue := .obj .nil

/-! ## Generic association-list helpers (JavaScript object semantics) -/

/-- Association lookup (first match), JavaScript `obj[ key ]`. -/
def lookupAssoc {α : Type} : List (String × α) → String → Option α
  | [], _ => none
  | (k, v) :: tl, key => if k = key then some v else lookupAssoc tl key

/-- Association assignment, JavaScript `obj[ key ] = v`: replace in place if
present, else append. -/
def setAssoc {α : Type} : List (String × α) → String → α → List (String × α)
  | [], key, v => [(key, v)]
  | (k, w) :: tl, key, v =>
      if k = key then (k, v) :: tl else (k, w) :: setAssoc tl key v

/-! ## Method calls and responses (`Connection.js`) -/

/-- A JMAP method response triple `[ name, args, tag ]`. -/
structure MethodResponse where
  name : String
  args : JValue
  tag : String

/-- A JMAP method call triple `[ name, args, tag ]`. -/
structure MethodCall where
  name : String
  args : JValue
  tag : String

/-- `Connection.js` line 26: `methodResponse[0] === 'error' &&
methodResponse[1].type === 'serverUnavailable'`. -/
def serverUnavailable (methodResponse : MethodResponse) : Bool :=
  methodResponse.name == "error" &&
    (match lookupProp methodResponse.args "type" with
     | some (.str t) => t == "serverUnavailable"
     | _ => false)

/-- `Connection.js` line 141, `hasResultReference`: some argument key starts
with `#` (`key.charAt( 0 ) === '#'`; for the empty key `charAt` yields `""`,
which is not `'#'`). -/
def hasResultReference (methodCall : MethodCall) : Bool :=
  (ownKeys methodCall.args).any (fun k =>
    match k.toList with
    | c :: _ => c == '#'
    | [] => false)

/-! ## Claim C2: `ioDidSucceed` classification -/

/-- Observable outcome of `ioDidSucceed` (`Connection.js` lines 286-342).
The store-side dispatch and the paging continuation are driven by the
fields recorded here; the claim concerns which branch is taken. -/
structure SuccessOutcome where
  retriedViaAuth : Bool
  dispatched : Option (List MethodResponse)
  sessionRefetched : Bool

/-- `ioDidSucceed`: on a 2xx response, if `methodResponses` is absent
(`!methodResponses`) or some response is a `serverUnavailable` error
(`methodResponses.some( serverUnavailable )`), and `willRetry`, hand the
connection to `auth.connectionFailed` and return; otherwise (resetting an
absent list to `[]`) report success and dispatch the responses, refetching
the session when `sessionState` is present and differs from the cached
one. -/
def ioDidSucceed (methodResponses : Option (List MethodResponse))
    (sessionState : Option String) (authState : String) (willRetry : Bool) :
    SuccessOutcome :=
  if (methodResponses.isNone ||
      (methodResponses.getD []).any serverUnavailable) && willRetry then
    { retriedViaAuth := true, dispatched := none, sessionRefetched := false }
  else
    { retriedViaAuth := false,
      dispatched := some (methodResponses.getD []),
      sessionRefetched := sessionState.isSome && sessionState != some authState }

/-- Counterexample responses for claim C2: a `serverUnavailable` error. -/
def suResponse : MethodResponse :=
  { name := "error",
    args := .obj (.cons "type" (.str "serverUnavailable") .nil),
    tag := "0" }

/-- Counterexample responses for claim C2: an ordinary successful response. -/
def okResponse : MethodResponse :=
  { name := "Email/get", args := .obj .nil, tag := "1" }

/-! ## Claim C6: `ioDidFail` classification -/

/-- The auth-module call made by a failure branch. -/
inductive AuthEffect where
  | didLoseAuthentication
  | fetchSession
  | connectionFailed (backoffSeconds : Option Nat)
deriving DecidableEq

/-- Observable outcome of `ioDidFail` (`Connection.js` lines 352-418). -/
structure FailOutcome where
  discarded : Bool
  authEffect : Option AuthEffect
  alerted : Bool
  loggedBadRequest : Bool
  callbacksFlushedEmpty : Bool
  inFlightCleared : Bool

/-- `ioDidFail`: the `switch ( status )`.  400/413 log the request and
discard; 401 calls `auth.didLoseAuthentication` (and reschedules); 404
refetches the session (and reschedules); 429/502/503/504 call
`auth.connectionFailed( this, 30 )`; 500 alerts the user and discards;
anything else retries via `auth.connectionFailed` when `willRetry`, else
discards.  Every discard path then runs `processCallbacks` with an empty
response list and clears the in-flight slots. -/
def ioDidFail (status : Int) (willRetry : Bool) : FailOutcome :=
  let r : Bool × Option AuthEffect × Bool × Bool :=
    if status = 400 ∨ status = 413 then (true, none, false, true)
    else if status = 401 then (false, some .didLoseAuthentication, false, false)
    else if status = 404 then (false, some .fetchSession, false, false)
    else if status = 429 ∨ status = 502 ∨ status = 503 ∨ status = 504 then
      (false, some (.connectionFailed (some 30)), false, false)
    else if status = 500 then (true, none, true, false)
    else if willRetry then (false, some (.connectionFailed none), false, false)
    else (true, none, false, false)
  { discarded := r.1,
    authEffect := r.2.1,
    alerted := r.2.2.1,
    loggedBadRequest := r.2.2.2,
    callbacksFlushedEmpty := r.1,
    inFlightCleared := r.1 }

/-! ## Claim C4: method-level error dispatch -/

/-- `requestName.slice( requestName.indexOf( '/' ) )`: the suffix from the
first `/` (inclusive); when the name has no `/`, `indexOf` is `-1` and
`slice( -1 )` keeps just the last character. -/
def sliceFromSlash (s : String) : String :=
  if s.toList.contains '/' then
    String.mk (s.toList.dropWhile (fun c => c ≠ '/'))
  else
    String.mk (s.toList.drop (s.toList.length - 1))

/-- `response.error` (`Connection.js` lines 1243-1277), with the handler
registry abstracted to the list of method names it defines.  Returns the
invoked handler names in invocation order, plus the `handled` flag (false
means the error is logged as unhandled and the call is a no-op).  Note the
structure of the source: the `error_<type>` lookup sits *outside* the inner
`else`, so it runs in addition to `error_<Method>` or `error_/<verb>`
whenever the most specific `error_<Method>_<type>` name missed. -/
def dispatchError (registry : List String) (requestName errType : String) :
    List String × Bool :=
  let m1 := "error_" ++ requestName ++ "_" ++ errType
  if registry.contains m1 then ([m1], true)
  else
    let m2 := "error_" ++ requestName
    let m3 := "error_" ++ sliceFromSlash requestName
    let first := if registry.contains m2 then [m2]
      else if registry.contains m3 then [m3] else []
    let m4 := "error_" ++ errType
    let second := if registry.contains m4 then [m4] else []
    (first ++ second, !(first ++ second).isEmpty)

/-! ## Claim C3: pagination slicing -/

/-- Is the call at index `i` a result-reference carrier?
(`remoteCalls[ end ]` past the end is `undefined`, whose `for ... in`
enumerates nothing, so `hasResultReference` is false there.) -/
def hasRefAt (calls : List MethodCall) (i : Nat) : Bool :=
  match calls.get? i with
  | some c => hasResultReference c
  | none => false

/-- The shrinking loop of `send` (`Connection.js` lines 604-612):
`while ( end > start + 1 ) { if ( !hasResultReference( remoteCalls[ end ] ) )
break; end -= 1; }`, written as recursion on the candidate end. -/
def shrinkEnd (calls : List MethodCall) (start : Nat) : Nat → Nat
  | 0 => 0
  | e + 1 =>
      if start + 1 < e + 1 && hasRefAt calls (e + 1) then
        shrinkEnd calls start e
      else e + 1

/-- `Array.prototype.slice( a, b )` for `0 ≤ a ≤ b` (clamped at the
length). -/
def sliceList {α : Type} (l : List α) (a b : Nat) : List α :=
  (l.drop a).take (b - a)

/-- The end index of the page starting at `done`: `end = start +
maxCallsInRequest`, shrunk only when it falls short of the batch
(`if ( end < remoteCalls.length )`). -/
def pageEnd (calls : List MethodCall) (m done : Nat) : Nat :=
  if done + m < calls.length then shrinkEnd calls done (done + m)
  else done + m

/-- Successive pages sent for a batch once an `inFlightContext` exists:
`doneCount` advances by `sentCount` after each reply (`ioDidSucceed`), and
each page is `remoteCalls.slice( start, end )`.  The fuel is the batch
length: every page carries at least one call when `maxCallsInRequest ≥ 1`,
so the recursion always ends within that many rounds. -/
def pagesAux (calls : List MethodCall) (m : Nat) :
    Nat → Nat → List (List MethodCall)
  | 0, _ => []
  | fuel + 1, done =>
      if done < calls.length then
        sliceList calls done (pageEnd calls m done) ::
          pagesAux calls m fuel (pageEnd calls m done)
      else []

/-- The pages a batch is split into.  A batch within `maxCallsInRequest`
never allocates an `inFlightContext` and goes out whole. -/
def pages (calls : List MethodCall) (m : Nat) : List (List MethodCall) :=
  if calls.length ≤ m then [calls] else pagesAux calls m calls.length 0

/-- No window of `m` consecutive calls consists entirely of
result-reference carriers (equivalently: every maximal run of consecutive
back-reference calls is shorter than `m`). -/
def noLongRefRuns (calls : List MethodCall) (m : Nat) : Bool :=
  (List.range calls.length).all (fun i =>
    !(decide (i + m ≤ calls.length)) ||
      (List.range m).any (fun j => !hasRefAt calls (i + j)))

/-- Counterexample calls for claim C3: a call with no reference. -/
def callNoRef : MethodCall :=
  { name := "Email/get",
    args := .obj (.cons "accountId" (.str "A1") .nil),
    tag := "0" }

/-- Counterexample calls for claim C3: a back-reference call (tag 1). -/
def callRef1 : MethodCall :=
  { name := "Thread/get",
    args := .obj (.cons "#ids" (.obj .nil) .nil),
    tag := "1" }

/-- Counterexample calls for claim C3: a back-reference call (tag 2). -/
def callRef2 : MethodCall :=
  { name := "Email/get",
    args := .obj (.cons "#ids" (.obj .nil) .nil),
    tag := "2" }

/-! ## Claim C5: the set-request builder -/

/-- The `update` block handed to `makeUpdate` (parallel arrays, one entry
per record, as documented on `commitChanges`). -/
structure UpdateArg where
  storeKeys : List String
  records : List JValue
  committed : List JValue
  changes : List (List (String × Bool))
  copyFromIds : List String

/-- JavaScript string coercion of the value used to index `updates`
(`record[ primaryKey ]`; in every call the engine makes this is a server id
string).  Array coercion (`join( "," )`) is not modelled: an id is never an
array. -/
def jsKeyString : Option JValue → String
  | some (.str s) => s
  | some .null => "null"
  | some (.bool b) => if b then "true" else "false"
  | some (.num n) => toString n
  | some (.arr _) => ""
  | some (.obj _) => "[object Object]"
  | none => "undefined"

/-- The body of `makeUpdate`'s `for key in change` loop: collect patches for
each attribute marked changed, skipping `accountId`.  With `noPatch` the
whole attribute value is emitted (an absent attribute would be serialised
away, modelled by skipping it); otherwise `makePatches` diffs the committed
value against the current one.  Distinct keys produce distinct paths, so
the shared `patches` object is modelled by concatenation. -/
def patchesForRecord (record : JValue) (previous : Option JValue)
    (change : List (String × Bool)) (noPatch : Bool) :
    List (String × JValue) :=
  change.foldl (fun acc kv =>
    if kv.2 && kv.1 ≠ "accountId" then
      if noPatch then
        match lookupProp record kv.1 with
        | some v => acc ++ [(kv.1, v)]
        | none => acc
      else
        acc ++ makePatches kv.1 (olookup previous kv.1) (lookupProp record kv.1)
    else acc) []

/-- The `for i` loop of `makeUpdate`, walking the parallel arrays (which the
store guarantees to have equal length; `headD` supplies JavaScript
`undefined`-avoiding defaults that are never reached under that
invariant). -/
def makeUpdateLoop (primaryKey : String) (noPatch isCopy : Bool) :
    List JValue → List JValue → List (List (String × Bool)) →
    List String → List String →
    List (String × List (String × JValue)) →
    List (String × List (String × JValue))
  | [], _, _, _, _, acc => acc
  | record :: rtl, committedL, changesL, storeKeysL, copyIdsL, acc =>
      let change := changesL.headD []
      let previous : Option JValue :=
        if noPatch then none else some (committedL.headD (.obj .nil))
      let patches := patchesForRecord record previous change noPatch
      let patches2 :=
        if isCopy then
          setAssoc patches primaryKey (.str (copyIdsL.headD ""))
        else patches
      let id :=
        if isCopy then storeKeysL.headD ""
        else jsKeyString (lookupProp record primaryKey)
      makeUpdateLoop primaryKey noPatch isCopy rtl committedL.tail
        changesL.tail storeKeysL.tail copyIdsL.tail (setAssoc acc id patches2)

/-- `makeUpdate` (`Connection.js` lines 90-120): per-record update payloads,
or `undefined` when no record produced one
(`Object.keys( updates ).length ? updates : undefined`). -/
def makeUpdate (primaryKey : String) (update : UpdateArg)
    (noPatch isCopy : Bool) :
    Option (List (String × List (String × JValue))) :=
  let updates := makeUpdateLoop primaryKey noPatch isCopy update.records
    update.committed update.changes update.storeKeys update.copyFromIds []
  if updates.length ≠ 0 then some updates else none

/-- The per-type change block handed to `makeSetRequest`. -/
structure ChangeArg where
  accountId : String
  primaryKey : String
  createStoreKeys : List String
  createRecords : List JValue
  update : UpdateArg
  destroyIds : List String

/-- The `<Type>/set` arguments produced by `makeSetRequest`. -/
structure SetRequest where
  accountId : String
  create : Option (List (String × JValue))
  update : Option (List (String × List (String × JValue)))
  destroy : Option (List String)

/-- `makeSetRequest` (`Connection.js` lines 122-139): zip creates, diff
updates, list destroys; `null` when every bucket is empty. -/
def makeSetRequest (change : ChangeArg) (noPatch : Bool) :
    Option SetRequest :=
  let toCreate := if change.createStoreKeys.length ≠ 0 then
      some (List.zip change.createStoreKeys change.createRecords)
    else none
  let toUpdate := makeUpdate change.primaryKey change.update noPatch false
  let toDestroy := if change.destroyIds.length ≠ 0 then
      some change.destroyIds
    else none
  if toCreate.isSome || toUpdate.isSome || toDestroy.isSome then
    some { accountId := change.accountId, create := toCreate,
           update := toUpdate, destroy := toDestroy }
  else none

/-- The update diff named by the specification: for every attribute marked
true in the change map except `accountId`, the `makePatches` diff of the
committed value against the current record value. -/
def specUpdateFor (record committed : JValue)
    (change : List (String × Bool)) : List (String × JValue) :=
  change.foldl (fun acc kv =>
    if kv.2 && kv.1 ≠ "accountId" then
      acc ++ makePatches kv.1 (lookupProp committed kv.1)
        (lookupProp record kv.1)
    else acc) []

/-- Concrete record for claim C5's scenario (after the edit). -/
def c5Record : JValue :=
  .obj (.cons "id" (.str "m7") (.cons "subject" (.str "b")
    (.cons "keywords" (.obj .nil) .nil)))

/-- Concrete committed state for claim C5's scenario (before the edit). -/
def c5Committed : JValue :=
  .obj (.cons "id" (.str "m7") (.cons "subject" (.str "a")
    (.cons "keywords" (.obj (.cons "$seen" (.bool true) .nil)) .nil)))

/-- Concrete change block for claim C5's scenario. -/
def c5Change : ChangeArg :=
  { accountId := "A1",
    primaryKey := "id",
    createStoreKeys := [],
    createRecords := [],
    update := { storeKeys := ["sk3"], records := [c5Record],
                committed := [c5Committed],
                changes := [[("subject", true), ("keywords", true)]],
                copyFromIds := [""] },
    destroyIds := [] }

/-! ## Claim C7: adaptive `maxChanges` paging -/

/-- Outcome of the `Email/changes` response handler (`Message.js` lines
584-607) as far as the adaptive schedule is concerned. -/
structure EmailChangesOutcome where
  newMaxChanges : Nat
  fetchedMore : Bool
  synthesizedCannotCalc : Bool

/-- `Email/changes` handler: on `hasMoreChanges`, escalate
`messageChangesMaxChanges` (50 → 100, otherwise → 150) and refetch; at the
ceiling synthesize `error_Email/changes_cannotCalculateChanges`; in every
path that does not refetch, reset the schedule to 50. -/
def emailChangesHandler (hasMoreChanges : Bool) (maxChanges : Nat) :
    EmailChangesOutcome :=
  if hasMoreChanges then
    if maxChanges < 150 then
      { newMaxChanges := if maxChanges = 50 then 100 else 150,
        fetchedMore := true, synthesizedCannotCalc := false }
    else
      { newMaxChanges := 50, fetchedMore := false,
        synthesizedCannotCalc := true }
  else
    { newMaxChanges := 50, fetchedMore := false,
      synthesizedCannotCalc := false }

/-- Outcome of the `threadUpdates` response handler (`Thread.js` lines
155-182). -/
structure ThreadUpdatesOutcome where
  newMaxChanges : Nat
  newFetchRecords : Bool
  fetchedMore : Bool
  synthesizedCannotCalc : Bool

/-- `threadUpdates` handler: on `hasMoreUpdates`, escalate
`threadUpdateMaxChanges` (30 → 100, dropping record fetching, otherwise →
120) and refetch; at the ceiling synthesize
`error_getThreadUpdates_cannotCalculateChanges`; in every path that does
not refetch, reset to 30 with record fetching back on. -/
def threadUpdatesHandler (hasMoreUpdates : Bool) (maxChanges : Nat)
    (fetchRecords : Bool) : ThreadUpdatesOutcome :=
  if hasMoreUpdates then
    if maxChanges < 120 then
      if maxChanges = 30 then
        { newMaxChanges := 100, newFetchRecords := false,
          fetchedMore := true, synthesizedCannotCalc := false }
      else
        { newMaxChanges := 120, newFetchRecords := fetchRecords,
          fetchedMore := true, synthesizedCannotCalc := false }
    else
      { newMaxChanges := 30, newFetchRecords := true,
        fetchedMore := false, synthesizedCannotCalc := true }
  else
    { newMaxChanges := 30, newFetchRecords := true,
      fetchedMore := false, synthesizedCannotCalc := false }

/-! ## Claim C8: `allStartDates` (`CalendarEvent.js`) -/

/-- A recurrence rule as `allStartDates` consumes it.  The source field
`until` is spelled `untilDate` here (`until` is reserved in Lean).  Dates are modelled as
timestamps (`Date` values and their ISO `recurrenceId` strings are in
order-preserving bijection, so the JSON-string set keys are modelled by the
timestamps themselves).  `getOccurrences` stands for the expansion kernel's
`getOccurrences( start, null, null )`: `RecurrenceRule.js` is not part of
the sources under verification and enters only as this enumeration. -/
structure RecurrenceRule where
  untilDate : Option Int
  count : Option Nat
  getOccurrences : Int → List Int

/-- JavaScript truthiness of the `count` field (`count: 0` is falsy). -/
def countTruthy : Option Nat → Bool
  | some n => n != 0
  | none => false

/-- A recurrence override: only its `excluded` flag matters to
`allStartDates` (`excluded: true` is an EXDATE, anything else an RDATE). -/
structure Override where
  excluded : Bool

/-- The slice of a calendar event that `allStartDates` reads. -/
structure CalendarEventRec where
  start : Int
  recurrenceRule : Option RecurrenceRule
  recurrenceOverrides : Option (List (Int × Override))

/-- Insert into the key set (`set[ id ] = true`): a no-op when present,
appended otherwise. -/
def insertIfAbsent (l : List Int) (d : Int) : List Int :=
  if l.contains d then l else l ++ [d]

/-- One `for id in recurrenceOverrides` step: `delete` for an EXDATE,
insert for an RDATE. -/
def overrideStep (s : List Int) (kv : Int × Override) : List Int :=
  if kv.2.excluded then s.filter (fun x => x ≠ kv.1) else insertIfAbsent s kv.1

/-- The override block of `allStartDates`: build the key set of the
enumerated dates, remove EXDATEs, add RDATEs, then map the keys back to
dates and sort ascending (`dates.sort( numerically )`, modelled by
insertion sort, which yields the same ascending rearrangement). -/
def applyOverridesSorted (dates : List Int)
    (ovs : Option (List (Int × Override))) : List Int :=
  match ovs with
  | none => dates
  | some l =>
      List.insertionSort (· ≤ ·)
        (l.foldl overrideStep (dates.foldl insertIfAbsent []))

/-- `allStartDates` (`CalendarEvent.js` lines 542-576). -/
def allStartDates (ev : CalendarEventRec) : List Int :=
  match ev.recurrenceRule with
  | some rule =>
      if rule.untilDate.isNone && !countTruthy rule.count then [ev.start]
      else applyOverridesSorted (rule.getOccurrences ev.start)
        ev.recurrenceOverrides
  | none => applyOverridesSorted [ev.start] ev.recurrenceOverrides

/-- Does some override entry mark this date excluded? -/
def isExcludedId (ovs : List (Int × Override)) (d : Int) : Bool :=
  ovs.any (fun kv => kv.1 = d && kv.2.excluded)

/-- Does some override entry add this date (non-excluded override)? -/
def isRdateId (ovs : List (Int × Override)) (d : Int) : Bool :=
  ovs.any (fun kv => kv.1 = d && !kv.2.excluded)

/-- Witness rule for claim C8: weekly, four occurrences. -/
def c8Rule : RecurrenceRule :=
  { untilDate := none, count := some 4,
    getOccurrences := fun s => [s, s + 7, s + 14, s + 21] }

/-- Witness event for claim C8: one EXDATE (at `start + 7`) and one RDATE
(at `start + 100`). -/
def c8Event : CalendarEventRec :=
  { start := 0, recurrenceRule := some c8Rule,
    recurrenceOverrides := some
      [(7, { excluded := true }), (100, { excluded := false })] }

/-- Witness rule for claim C8's unbounded branch. -/
def c8UnboundedRule : RecurrenceRule :=
  { untilDate := none, count := none, getOccurrences := fun s => [s] }

/-- Witness event for claim C8's unbounded branch. -/
def c8Unbounded : CalendarEventRec :=
  { start := 5,
    recurrenceRule := some c8UnboundedRule,
    recurrenceOverrides := some [(12, { excluded := false })] }

/-! ## Claim C10: `commitChanges` precedence ordering -/

/-- The one field of a per-type change block that `commitChanges` reads
before handing off. -/
structure CommitChange where
  typeId : String

/-- Observable outcome of `commitChanges` (`Connection.js` lines
988-1019). -/
structure CommitOutcome where
  invoked : List String
  handledAny : Bool
  callbackQueued : Bool

/-- `typeId` of the change stored under an id. -/
def typeIdOf (changes : List (String × CommitChange)) (id : String) : String :=
  match lookupAssoc changes id with
  | some c => c.typeId
  | none => ""

/-- The sort key: `precedence[ changes[ id ].typeId ] || -1`.  JavaScript
`||` replaces any falsy value — an absent entry *or* an explicit `0` — by
`-1`. -/
def effectivePrecedence (precedence : List (String × Int))
    (changes : List (String × CommitChange)) (id : String) : Int :=
  match lookupAssoc precedence (typeIdOf changes id) with
  | some p => if p = 0 then -1 else p
  | none => -1

/-- `commitChanges`: sort the ids descending by effective precedence (a
stable sort, per modern `Array.prototype.sort`), then iterate from the back
(`while ( l-- )`), invoking the committer of each type that has one;
`handledAny` records whether any did, and the callback is queued exactly
when `handledAny` and a callback was supplied. -/
def commitChanges (changes : List (String × CommitChange))
    (precedence : Option (List (String × Int)))
    (committers : List String) (hasCallback : Bool) : CommitOutcome :=
  let ids := changes.map Prod.fst
  let sorted := match precedence with
    | some p => List.insertionSort
        (fun a b => effectivePrecedence p changes b ≤
          effectivePrecedence p changes a) ids
    | none => ids
  let invoked := sorted.reverse.filter
    (fun id => committers.contains (typeIdOf changes id))
  { invoked := invoked,
    handledAny := !invoked.isEmpty,
    callbackQueued := !invoked.isEmpty && hasCallback }

/-- Counterexample changes for claim C10: id `a` of type `Y`, id `b` of
type `X`. -/
def c10Changes : List (String × CommitChange) :=
  [("a", { typeId := "Y" }), ("b", { typeId := "X" })]

/-- Counterexample precedence map for claim C10: `X` mapped to `0`
(falsy!), `Y` mapped to `-1`. -/
def c10Precedence : List (String × Int) := [("X", 0), ("Y", -1)]

/-! ## Theorems -/

/-- Decoding undoes encoding, character-list core.  The induction tracks how
each source character becomes a block (`~` ↦ `~0`, `/` ↦ `~1`, other ↦
itself) and that no spurious `~1`/`~0` pattern can straddle two blocks. -/
theorem dec_enc (cs : List Char) :
    decTildeAux false (decSlashAux false (encSlash (encTilde cs))) = cs := by
  induction cs with
  | nil => rfl
  | cons c cs ih =>
      by_cases hc : c = '~'
      · subst hc
        simp [encTilde, encSlash, decSlashAux, decTildeAux, ih]
      · by_cases hs : c = '/'
        · subst hs
          simp [encTilde, encSlash, decSlashAux, decTildeAux, ih]
        · simp [encTilde, encSlash, decSlashAux, decTildeAux, hc, hs, ih]

/-! ## Field-list lemmas -/

/-- List-style induction for `JFields` (the value components are not
recursed into, so no mutual motive is needed). -/
theorem JFields.recTailFields {motive : JFields → Prop} (nil : motive .nil)
    (cons : ∀ k v tl, motive tl → motive (.cons k v tl)) :
    ∀ fs, motive fs
  | .nil => nil
  | .cons k v tl => cons k v tl (JFields.recTailFields nil cons tl)

/-- List-style induction for `JItems`. -/
theorem JItems.recTailItems {motive : JItems → Prop} (nil : motive .nil)
    (cons : ∀ v tl, motive tl → motive (.cons v tl)) :
    ∀ xs, motive xs
  | .nil => nil
  | .cons v tl => cons v tl (JItems.recTailItems nil cons tl)

namespace JFields

theorem getKey_setKey_same (fs : JFields) (k : String) (v : JValue) :
    (fs.setKey k v).getKey k = some v := by
  induction fs using JFields.recTailFields with
  | nil => simp [setKey, getKey]
  | cons k2 w tl ih =>
      by_cases h : k2 = k
      · simp [setKey, getKey, h]
      · simp [setKey, getKey, h, ih]

theorem getKey_setKey_other (fs : JFields) {k k2 : String} (v : JValue)
    (h : k2 ≠ k) : (fs.setKey k v).getKey k2 = fs.getKey k2 := by
  have hsym : k ≠ k2 := Ne.symm h
  induction fs using JFields.recTailFields with
  | nil => simp [setKey, getKey, hsym]
  | cons k3 w tl ih =>
      by_cases h3 : k3 = k
      · subst h3
        simp [setKey, getKey, hsym]
      · simp only [setKey, if_neg h3, getKey]
        by_cases h4 : k3 = k2 <;> simp [h4, ih]

theorem getKey_eq_none_of_not_hasKey {fs : JFields} {k : String}
    (h : fs.hasKey k = false) : fs.getKey k = none := by
  unfold hasKey at h
  cases hk : fs.getKey k with
  | none => rfl
  | some v => rw [hk] at h; simp at h

theorem hasKey_iff_mem_keys (fs : JFields) (k : String) :
    fs.hasKey k = true ↔ k ∈ fs.keys := by
  induction fs using JFields.recTailFields with
  | nil => simp [hasKey, getKey, keys]
  | cons k2 w tl ih =>
      by_cases h : k2 = k
      · simp [hasKey, getKey, keys, h]
      · simp only [hasKey, getKey, if_neg h, keys, List.mem_cons]
        rw [← ih]
        simp only [hasKey]
        constructor
        · exact fun hs => Or.inr hs
        · rintro (hk | hs)
          · exact absurd hk.symm h
          · exact hs

theorem nodup_setKey {fs : JFields} (k : String) (v : JValue)
    (h : fs.nodupKeys = true) : (fs.setKey k v).nodupKeys = true := by
  induction fs using JFields.recTailFields with
  | nil => simp [setKey, nodupKeys, hasKey, getKey]
  | cons k2 w tl ih =>
      simp only [nodupKeys, Bool.and_eq_true, Bool.not_eq_true'] at h
      by_cases h2 : k2 = k
      · subst h2
        simp [setKey, nodupKeys, h.1, h.2]
      · simp only [setKey, if_neg h2, nodupKeys, Bool.and_eq_true,
          Bool.not_eq_true']
        refine ⟨?_, ih h.2⟩
        unfold hasKey
        rw [getKey_setKey_other _ _ h2]
        exact h.1

theorem setKey_eq_self {fs : JFields} {k : String} {v : JValue}
    (h : fs.getKey k = some v) : fs.setKey k v = fs := by
  induction fs using JFields.recTailFields with
  | nil => simp [getKey] at h
  | cons k2 w tl ih =>
      by_cases h2 : k2 = k
      · subst h2
        simp [getKey] at h
        subst h
        simp [setKey]
      · simp only [getKey, if_neg h2] at h
        simp [setKey, h2, ih h]

theorem setKey_setKey_same (fs : JFields) (k : String) (v w : JValue) :
    (fs.setKey k v).setKey k w = fs.setKey k w := by
  induction fs using JFields.recTailFields with
  | nil => simp [setKey]
  | cons k2 u tl ih =>
      by_cases h2 : k2 = k
      · simp [setKey, h2]
      · simp [setKey, h2, ih]

theorem getKey_delKey_other (fs : JFields) {k k2 : String} (h : k2 ≠ k) :
    (fs.delKey k).getKey k2 = fs.getKey k2 := by
  have hsym : k ≠ k2 := Ne.symm h
  induction fs using JFields.recTailFields with
  | nil => simp [delKey]
  | cons k3 w tl ih =>
      by_cases h3 : k3 = k
      · subst h3
        simp [delKey, getKey, hsym]
      · simp only [delKey, if_neg h3, getKey]
        by_cases h4 : k3 = k2 <;> simp [h4, ih]

theorem getKey_delKey_same {fs : JFields} (k : String)
    (h : fs.nodupKeys = true) : (fs.delKey k).getKey k = none := by
  induction fs using JFields.recTailFields with
  | nil => simp [delKey, getKey]
  | cons k2 w tl ih =>
      simp only [nodupKeys, Bool.and_eq_true, Bool.not_eq_true'] at h
      by_cases h2 : k2 = k
      · subst h2
        simpa [delKey] using getKey_eq_none_of_not_hasKey h.1
      · simp [delKey, h2, getKey, ih h.2]

theorem hasKey_delKey_imp {fs : JFields} {k k2 : String}
    (h : (fs.delKey k).hasKey k2 = true) : fs.hasKey k2 = true := by
  induction fs using JFields.recTailFields with
  | nil => simpa [delKey] using h
  | cons k3 w tl ih =>
      by_cases h3 : k3 = k
      · subst h3
        simp only [delKey, if_pos rfl] at h
        by_cases h4 : k3 = k2
        · simp [hasKey, getKey, h4]
        · simp only [hasKey, getKey, if_neg h4]
          exact h
      · simp only [delKey, if_neg h3] at h
        by_cases h4 : k3 = k2
        · simp [hasKey, getKey, h4]
        · simp only [hasKey, getKey, if_neg h4] at h ⊢
          exact ih h

theorem nodup_delKey {fs : JFields} (k : String)
    (h : fs.nodupKeys = true) : (fs.delKey k).nodupKeys = true := by
  induction fs using JFields.recTailFields with
  | nil => simp [delKey, nodupKeys]
  | cons k2 w tl ih =>
      simp only [nodupKeys, Bool.and_eq_true, Bool.not_eq_true'] at h
      by_cases h2 : k2 = k
      · subst h2
        simpa [delKey] using h.2
      · simp only [delKey, if_neg h2, nodupKeys, Bool.and_eq_true,
          Bool.not_eq_true']
        refine ⟨?_, ih h.2⟩
        cases hk : (tl.delKey k).hasKey k2 with
        | false => rfl
        | true =>
            have hmem := hasKey_delKey_imp hk
            rw [h.1] at hmem
            cases hmem

theorem length_eq_keys_length (fs : JFields) : fs.length = fs.keys.length := by
  induction fs using JFields.recTailFields with
  | nil => rfl
  | cons k v tl ih => simp [length, keys, ih]

theorem nodupKeys_iff_keys_nodup (fs : JFields) :
    fs.nodupKeys = true ↔ fs.keys.Nodup := by
  induction fs using JFields.recTailFields with
  | nil => simp [nodupKeys, keys]
  | cons k v tl ih =>
      simp only [nodupKeys, Bool.and_eq_true, Bool.not_eq_true', keys,
        List.nodup_cons, ih]
      constructor
      · rintro ⟨h1, h2⟩
        refine ⟨fun hm => ?_, h2⟩
        rw [← hasKey_iff_mem_keys] at hm
        rw [hm] at h1
        cases h1
      · rintro ⟨h1, h2⟩
        refine ⟨?_, h2⟩
        cases hk : tl.hasKey k with
        | false => rfl
        | true => exact absurd ((hasKey_iff_mem_keys tl k).1 hk) h1

theorem length_eq_of_hasKey_eq {fs gs : JFields}
    (hf : fs.nodupKeys = true) (hg : gs.nodupKeys = true)
    (h : ∀ k, fs.hasKey k = gs.hasKey k) : fs.length = gs.length := by
  rw [length_eq_keys_length, length_eq_keys_length]
  refine List.Perm.length_eq ?_
  rw [List.perm_ext_iff_of_nodup ((nodupKeys_iff_keys_nodup fs).1 hf)
    ((nodupKeys_iff_keys_nodup gs).1 hg)]
  intro k
  rw [← hasKey_iff_mem_keys, ← hasKey_iff_mem_keys, h k]

end JFields

/-! ## Value-level lemmas -/

theorem jsize_pos : ∀ v : JValue, 1 ≤ jsize v := by
  intro v
  cases v <;> simp [jsize]

theorem jsize_getKey_le {fs : JFields} {k : String} {v : JValue}
    (h : fs.getKey k = some v) : jsize v ≤ jsizeFields fs := by
  induction fs using JFields.recTailFields with
  | nil => simp [JFields.getKey] at h
  | cons k2 w tl ih =>
      simp only [JFields.getKey] at h
      by_cases h2 : k2 = k
      · rw [if_pos h2] at h
        injection h with h
        subst h
        simp only [jsizeFields]
        omega
      · rw [if_neg h2] at h
        have := ih h
        simp only [jsizeFields]
        omega

theorem wfJ_of_getKey {fs : JFields} {k : String} {v : JValue}
    (hw : wfFields fs = true) (h : fs.getKey k = some v) : wfJ v = true := by
  induction fs using JFields.recTailFields with
  | nil => simp [JFields.getKey] at h
  | cons k2 w tl ih =>
      simp only [wfFields, Bool.and_eq_true] at hw
      simp only [JFields.getKey] at h
      by_cases h2 : k2 = k
      · rw [if_pos h2] at h
        injection h with h
        subst h
        exact hw.1
      · rw [if_neg h2] at h
        exact ih hw.2 h

theorem nullFree_of_getKey {fs : JFields} {k : String} {v : JValue}
    (hw : nullFreeFields fs = true) (h : fs.getKey k = some v) :
    nullFree v = true := by
  induction fs using JFields.recTailFields with
  | nil => simp [JFields.getKey] at h
  | cons k2 w tl ih =>
      simp only [nullFreeFields, Bool.and_eq_true] at hw
      simp only [JFields.getKey] at h
      by_cases h2 : k2 = k
      · rw [if_pos h2] at h
        injection h with h
        subst h
        exact hw.1
      · rw [if_neg h2] at h
        exact ih hw.2 h

theorem good_of_getKey {fs : JFields} {k : String} {v : JValue}
    (hg : good (.obj fs) = true) (h : fs.getKey k = some v) : good v = true := by
  simp only [good, nullFree, wfJ, Bool.and_eq_true] at hg
  simp only [good, Bool.and_eq_true]
  exact ⟨nullFree_of_getKey hg.1 h, wfJ_of_getKey hg.2.2 h⟩

/-- `isEqual v null` holds exactly for `null` itself. -/
theorem isEqual_null_right (v : JValue) : isEqual v .null = v.isNull := by
  cases v <;> rfl

/-- A falsy (or `undefined`) value is never `isEqual` to a plain object. -/
theorem isEqualO_falsy_obj {o : Option JValue} (cf : JFields)
    (h : optTruthy o = false) : isEqualO o (some (.obj cf)) = false := by
  cases o with
  | none => rfl
  | some v => cases v <;> first | rfl | simp [optTruthy, JValue.truthy] at h

theorem isEqualO_some_right {o : Option JValue} {c : JValue}
    (h : isEqualO o (some c) = true) :
    ∃ v, o = some v ∧ isEqual v c = true := by
  cases o with
  | none => simp [isEqualO] at h
  | some v => exact ⟨v, rfl, h⟩

/-- Objects compare equal when every field of the left object matches a
field of the right one of equal value, and the key counts agree. -/
theorem isEqualFields_of_pointwise :
    ∀ (fs gs : JFields), fs.nodupKeys = true →
    (∀ k v, fs.getKey k = some v →
      ∃ w, gs.getKey k = some w ∧ isEqual v w = true) →
    isEqualFields fs gs = true := by
  intro fs
  induction fs using JFields.recTailFields with
  | nil => intro gs _ _; rfl
  | cons k v tl ih =>
      intro gs hnd h
      simp only [JFields.nodupKeys, Bool.and_eq_true, Bool.not_eq_true'] at hnd
      obtain ⟨w, hw, he⟩ := h k v (by simp [JFields.getKey])
      simp only [isEqualFields, hw, he, Bool.and_eq_true]
      refine ⟨trivial, ih gs hnd.2 ?_⟩
      intro k2 v2 hg
      have hmem : tl.hasKey k2 = true := by
        unfold JFields.hasKey
        rw [hg]
        rfl
      have hne : k2 ≠ k := by
        intro hk
        subst hk
        rw [hnd.1] at hmem
        cases hmem
      refine h k2 v2 ?_
      simp [JFields.getKey, Ne.symm hne, hg]

theorem isEqualItems_refl_aux (n : Nat)
    (ih : ∀ v, jsize v ≤ n → wfJ v = true → isEqual v v = true) :
    ∀ xs, jsizeItems xs ≤ n → wfItems xs = true → isEqualItems xs xs = true := by
  intro xs
  induction xs using JItems.recTailItems with
  | nil => intro _ _; rfl
  | cons v tl ihx =>
      intro hs hw
      simp only [jsizeItems] at hs
      simp only [wfItems, Bool.and_eq_true] at hw
      simp only [isEqualItems, Bool.and_eq_true]
      exact ⟨ih v (by omega) hw.1, ihx (by omega) hw.2⟩

/-- `O.isEqual` is reflexive on well-formed values. -/
theorem isEqual_refl : ∀ (n : Nat) (v : JValue), jsize v ≤ n →
    wfJ v = true → isEqual v v = true := by
  intro n
  induction n with
  | zero =>
      intro v hv _
      have := jsize_pos v
      omega
  | succ n ih =>
      intro v hv hwf
      cases v with
      | null => rfl
      | bool b => simp [isEqual]
      | num x => simp [isEqual]
      | str s => simp [isEqual]
      | arr xs =>
          simp only [isEqual, Bool.and_eq_true, beq_iff_eq]
          simp only [jsize] at hv
          simp only [wfJ] at hwf
          exact ⟨trivial, isEqualItems_refl_aux n ih xs (by omega) hwf⟩
      | obj fs =>
          simp only [isEqual, Bool.and_eq_true, beq_iff_eq]
          simp only [jsize] at hv
          simp only [wfJ, Bool.and_eq_true] at hwf
          refine ⟨trivial, isEqualFields_of_pointwise fs fs hwf.1 ?_⟩
          intro k v hk
          refine ⟨v, hk, ih v ?_ (wfJ_of_getKey hwf.2 hk)⟩
          have := jsize_getKey_le hk
          omega

/-! ## Application lemmas -/

theorem isNull_eq_false_of_nullFree {v : JValue} (h : nullFree v = true) :
    v.isNull = false := by
  cases v <;> first | rfl | simp [nullFree] at h

theorem applyCompsRaw_obj_terminal (F : JFields) (k : String) (p : JValue) :
    applyCompsRaw (.obj F) [k] p =
      (if p.isNull then some (.obj (F.delKey k))
       else some (.obj (F.setKey k p))) := rfl

theorem applyCompsRaw_obj_descend (F : JFields) (k k2 : String)
    (rest : List String) (p : JValue) :
    applyCompsRaw (.obj F) (k :: k2 :: rest) p =
      (match F.getKey k with
       | some child =>
           (applyCompsRaw child (k2 :: rest) p).map (setProp (.obj F) k)
       | none => some (.obj F)) := rfl

theorem applyListRaw_nil (x : JValue) : applyListRaw x [] = some x := rfl

theorem applyListRaw_cons (x : JValue) (p : List String × JValue)
    (ps : List (List String × JValue)) :
    applyListRaw x (p :: ps) =
      (applyCompsRaw x p.1 p.2).bind (fun y => applyListRaw y ps) := rfl

theorem applyListRaw_append (x : JValue) (ps qs : List (List String × JValue)) :
    applyListRaw x (ps ++ qs) =
      (applyListRaw x ps).bind (fun y => applyListRaw y qs) := by
  induction ps generalizing x with
  | nil =>
      rw [List.nil_append, applyListRaw_nil]
      rfl
  | cons p ps ih =>
      rw [List.cons_append, applyListRaw_cons, applyListRaw_cons]
      cases applyCompsRaw x p.1 p.2 with
      | none => rfl
      | some y => simpa using ih y

/-- Framing: a batch of patches whose paths all start with `k` and descend
further acts on the parent object exactly as the un-prefixed batch acts on
the value stored at `k`. -/
theorem frame_lemma :
    ∀ (ps : List (List String × JValue)) (F : JFields) (k : String)
      (v v' : JValue),
      F.getKey k = some v →
      (∀ p ∈ ps, p.1 ≠ []) →
      applyListRaw v ps = some v' →
      applyListRaw (.obj F) (ps.map (fun pr => (k :: pr.1, pr.2))) =
        some (.obj (F.setKey k v')) := by
  intro ps
  induction ps with
  | nil =>
      intro F k v v' hget _ happ
      rw [applyListRaw_nil] at happ
      injection happ with happ
      subst happ
      rw [List.map_nil, applyListRaw_nil, JFields.setKey_eq_self hget]
  | cons p ps ih =>
      intro F k v v' hget hne happ
      obtain ⟨c, cs, hp⟩ : ∃ c cs, p.1 = c :: cs := by
        cases hp : p.1 with
        | nil => exact absurd hp (hne p (List.mem_cons_self p ps))
        | cons c cs => exact ⟨c, cs, rfl⟩
      rw [applyListRaw_cons] at happ
      cases hstep : applyCompsRaw v p.1 p.2 with
      | none => rw [hstep] at happ; cases happ
      | some v1 =>
          rw [hstep, Option.some_bind'] at happ
          rw [List.map_cons, applyListRaw_cons]
          have hdesc : applyCompsRaw (.obj F) (k :: p.1) p.2 =
              some (.obj (F.setKey k v1)) := by
            rw [hp, applyCompsRaw_obj_descend, hget]
            show (applyCompsRaw v (c :: cs) p.2).map (setProp (.obj F) k) =
              some (.obj (F.setKey k v1))
            rw [← hp, hstep]
            rfl
          rw [hdesc, Option.some_bind']
          have := ih (F.setKey k v1) k v1 v'
            (JFields.getKey_setKey_same F k v1)
            (fun q hq => hne q (List.mem_cons_of_mem p hq)) happ
          rw [this, JFields.setKey_setKey_same]

/-- Applying patches `[k] → null` for a list of keys deletes exactly those
keys. -/
theorem applyListRaw_deletes :
    ∀ (ks : List String) (F : JFields),
      applyListRaw (.obj F) (ks.map (fun k => ([k], JValue.null))) =
        some (.obj (ks.foldl JFields.delKey F)) := by
  intro ks
  induction ks with
  | nil => intro F; rfl
  | cons k ks ih =>
      intro F
      rw [List.map_cons, applyListRaw_cons, applyCompsRaw_obj_terminal]
      show ((some (JValue.obj (F.delKey k))).bind
        fun y => applyListRaw y (ks.map (fun k2 => ([k2], JValue.null)))) = _
      rw [Option.some_bind', ih, List.foldl_cons]

theorem filterMap_eq_map_of_forall {α β : Type} (l : List α)
    (f : α → Option β) (g : α → β) (h : ∀ a ∈ l, f a = some (g a)) :
    l.filterMap f = l.map g := by
  induction l with
  | nil => rfl
  | cons a l ih =>
      rw [List.filterMap_cons, h a (List.mem_cons_self a l), List.map_cons,
        ih (fun b hb => h b (List.mem_cons_of_mem a hb))]

/-- On a `null`-free original, the guard inside `deletionPatchesC` never
fires: every missing key yields a deletion patch. -/
theorem deletionPatchesC_eq_map {of0 cf : JFields}
    (h : nullFreeFields of0 = true) :
    deletionPatchesC (some (.obj of0)) cf =
      (of0.keys.filter (fun k => !cf.hasKey k)).map
        (fun k => ([k], JValue.null)) := by
  unfold deletionPatchesC
  refine filterMap_eq_map_of_forall _ _ _ ?_
  intro k hk
  have hmem : k ∈ of0.keys := (List.mem_filter.1 hk).1
  have hhas : of0.hasKey k = true := (JFields.hasKey_iff_mem_keys of0 k).2 hmem
  obtain ⟨v, hv⟩ : ∃ v, of0.getKey k = some v := by
    unfold JFields.hasKey at hhas
    cases hg : of0.getKey k with
    | none => rw [hg] at hhas; cases hhas
    | some v => exact ⟨v, rfl⟩
  have hnf : nullFree v = true := nullFree_of_getKey h hv
  have hlook : olookup (some (.obj of0)) k = some v := by
    simp [olookup, lookupProp, hv]
  simp [hlook, isEqualO, isEqual_null_right, isNull_eq_false_of_nullFree hnf]

theorem nodup_foldl_delKey :
    ∀ (ks : List String) (F : JFields), F.nodupKeys = true →
      (ks.foldl JFields.delKey F).nodupKeys = true := by
  intro ks
  induction ks with
  | nil => intro F h; exact h
  | cons k ks ih =>
      intro F h
      rw [List.foldl_cons]
      exact ih _ (JFields.nodup_delKey k h)

theorem getKey_foldl_delKey_not_mem :
    ∀ (ks : List String) (F : JFields) (k : String), k ∉ ks →
      (ks.foldl JFields.delKey F).getKey k = F.getKey k := by
  intro ks
  induction ks with
  | nil => intro F k _; rfl
  | cons k2 ks ih =>
      intro F k hk
      have hne : k ≠ k2 := by
        intro he
        exact hk (by rw [he]; exact List.mem_cons_self k2 ks)
      rw [List.foldl_cons,
        ih _ _ (fun hm => hk (List.mem_cons_of_mem k2 hm)),
        JFields.getKey_delKey_other F hne]

theorem getKey_foldl_delKey_mem :
    ∀ (ks : List String) (F : JFields) (k : String), F.nodupKeys = true →
      k ∈ ks → (ks.foldl JFields.delKey F).getKey k = none := by
  intro ks
  induction ks with
  | nil => intro F k _ hk; cases hk
  | cons k2 ks ih =>
      intro F k hnd hk
      rw [List.foldl_cons]
      by_cases he : k ∈ ks
      · exact ih _ _ (JFields.nodup_delKey k2 hnd) he
      · have hk2 : k = k2 := by
          rcases List.mem_cons.1 hk with h | h
          · exact h
          · exact absurd h he
        subst hk2
        rw [getKey_foldl_delKey_not_mem ks _ k he]
        exact JFields.getKey_delKey_same k hnd

theorem patchesCFields_paths_ne_nil :
    ∀ (cf : JFields) (o : Option JValue) (p : List String × JValue),
      p ∈ patchesCFields o cf → p.1 ≠ [] := by
  intro cf
  induction cf using JFields.recTailFields with
  | nil => intro o p hp; cases hp
  | cons k v tl ih =>
      intro o p hp
      rw [patchesCFields, List.mem_append] at hp
      rcases hp with hp | hp
      · obtain ⟨q, _, hq⟩ := List.mem_map.1 hp
        rw [← hq]
        simp
      · exact ih o p hp

theorem deletionPatchesC_paths_ne_nil {o : Option JValue} {cf : JFields}
    {p : List String × JValue} (hp : p ∈ deletionPatchesC o cf) :
    p.1 ≠ [] := by
  unfold deletionPatchesC at hp
  obtain ⟨k, _, hk⟩ := List.mem_filterMap.1 hp
  by_cases he : isEqualO (olookup o k) (some JValue.null) = true
  · rw [if_pos he] at hk
    cases hk
  · rw [if_neg he] at hk
    injection hk with hk
    rw [← hk]
    simp

/-- The final `else` branch of `makePatches` as one reusable step: the
emitted whole-value patch (if any) assigns `c` at the position `k` of the
parent. -/
theorem roundTrip_else (F : JFields) (k : String) (c : JValue) (B : Nat)
    (hpat : patchesCV (F.getKey k) c =
      if isEqualO (F.getKey k) (some c) = true then [] else [([], c)])
    (hsz : jsize c ≤ B) (hnf : nullFree c = true) (hwf : wfJ c = true) :
    ∃ r, applyListRaw (.obj F)
        ((patchesCV (F.getKey k) c).map (fun pr => (k :: pr.1, pr.2))) =
        some (.obj (F.setKey k r)) ∧ isEqual r c = true := by
  rw [hpat]
  by_cases he : isEqualO (F.getKey k) (some c) = true
  · rw [if_pos he, List.map_nil, applyListRaw_nil]
    obtain ⟨v0, hv0, hev⟩ := isEqualO_some_right he
    exact ⟨v0, by rw [JFields.setKey_eq_self hv0], hev⟩
  · rw [if_neg he]
    refine ⟨c, ?_, isEqual_refl B c hsz hwf⟩
    show applyListRaw (.obj F) [([k], c)] = some (.obj (F.setKey k c))
    rw [applyListRaw_cons, applyCompsRaw_obj_terminal,
      if_neg (by rw [isNull_eq_false_of_nullFree hnf]; exact fun h => Bool.noConfusion h)]
    rfl

/-- Inner walk of the round-trip argument: applying the patches computed for
the fixed original fields `of0` against current fields `cf` to an evolving
object `Fnow` that still agrees with `of0` on every key of `cf`.  Keys of
`cf` end up holding values structurally equal to `cf`'s; other keys are
untouched. -/
theorem roundTrip_fields (B : Nat)
    (IH : ∀ (c : JValue) (F : JFields) (k : String), jsize c ≤ B →
      F.nodupKeys = true → optGood (F.getKey k) = true → good c = true →
      compat (F.getKey k) c = true →
      ∃ r, applyListRaw (.obj F)
          ((patchesCV (F.getKey k) c).map (fun pr => (k :: pr.1, pr.2))) =
          some (.obj (F.setKey k r)) ∧ isEqual r c = true) :
    ∀ (cf of0 Fnow : JFields),
      jsizeFields cf ≤ B →
      Fnow.nodupKeys = true →
      (∀ k, k ∈ cf.keys → Fnow.getKey k = of0.getKey k) →
      good (.obj of0) = true →
      cf.nodupKeys = true → nullFreeFields cf = true → wfFields cf = true →
      compatFields of0 cf = true →
      ∃ Fend, applyListRaw (.obj Fnow) (patchesCFields (some (.obj of0)) cf) =
          some (.obj Fend) ∧
        Fend.nodupKeys = true ∧
        (∀ k, k ∈ cf.keys → ∃ rk cv, Fend.getKey k = some rk ∧
          cf.getKey k = some cv ∧ isEqual rk cv = true) ∧
        (∀ k, k ∉ cf.keys → Fend.getKey k = Fnow.getKey k) := by
  intro cf
  induction cf using JFields.recTailFields with
  | nil =>
      intro of0 Fnow _ hnodF _ _ _ _ _ _
      refine ⟨Fnow, ?_, hnodF, ?_, ?_⟩
      · simp only [patchesCFields]
        exact applyListRaw_nil _
      · intro k hk
        simp [JFields.keys] at hk
      · intro k _
        rfl
  | cons k v tl ih =>
      intro of0 Fnow hsz hnodF hagree hgoodO hnodcf hnfcf hwfcf hcompat
      simp only [jsizeFields] at hsz
      simp only [JFields.nodupKeys, Bool.and_eq_true, Bool.not_eq_true'] at hnodcf
      simp only [nullFreeFields, Bool.and_eq_true] at hnfcf
      simp only [wfFields, Bool.and_eq_true] at hwfcf
      simp only [compatFields, Bool.and_eq_true] at hcompat
      have hagk : Fnow.getKey k = of0.getKey k := by
        refine hagree k ?_
        simp [JFields.keys]
      have hgoodHead : optGood (Fnow.getKey k) = true := by
        rw [hagk]
        cases hg : of0.getKey k with
        | none => rfl
        | some w => exact good_of_getKey hgoodO hg
      have hcompHead : compat (Fnow.getKey k) v = true := by
        rw [hagk]
        exact hcompat.1
      obtain ⟨r, happ1, hr⟩ := IH v Fnow k (by omega) hnodF hgoodHead
        (by simp [good, hnfcf.1, hwfcf.1]) hcompHead
      simp only [patchesCFields]
      have holow : olookup (some (.obj of0)) k = of0.getKey k := rfl
      rw [holow, ← hagk, applyListRaw_append, happ1, Option.some_bind']
      have hknotl : k ∉ tl.keys := by
        intro hm
        have := (JFields.hasKey_iff_mem_keys tl k).2 hm
        rw [hnodcf.1] at this
        cases this
      have hagree1 : ∀ k2, k2 ∈ tl.keys →
          (Fnow.setKey k r).getKey k2 = of0.getKey k2 := by
        intro k2 hk2
        have hne : k2 ≠ k := fun he => hknotl (he ▸ hk2)
        rw [JFields.getKey_setKey_other _ _ hne]
        refine hagree k2 ?_
        simp only [JFields.keys, List.mem_cons]
        exact Or.inr hk2
      obtain ⟨Fend, happ2, hnodEnd, hpt, hun⟩ :=
        ih of0 (Fnow.setKey k r) (by omega) (JFields.nodup_setKey k r hnodF)
          hagree1 hgoodO hnodcf.2 hnfcf.2 hwfcf.2 hcompat.2
      refine ⟨Fend, happ2, hnodEnd, ?_, ?_⟩
      · intro k2 hk2
        simp only [JFields.keys, List.mem_cons] at hk2
        rcases hk2 with he | hm
        · subst he
          refine ⟨r, v, ?_, ?_, hr⟩
          · rw [hun k2 hknotl, JFields.getKey_setKey_same]
          · simp [JFields.getKey]
        · have hne : k2 ≠ k := by
            intro he
            subst he
            exact hknotl hm
          obtain ⟨rk, cv, h1, h2, h3⟩ := hpt k2 hm
          refine ⟨rk, cv, h1, ?_, h3⟩
          rw [JFields.getKey, if_neg (Ne.symm hne)]
          exact h2
      · intro k2 hk2
        simp only [JFields.keys, List.mem_cons, not_or] at hk2
        rw [hun k2 hk2.2, JFields.getKey_setKey_other _ _ hk2.1]

/-- Master round-trip step: the patches `makePatches` computes for the value
at key `k` of a parent object, applied back to the parent, leave the parent
holding a value structurally equal to the current value at `k` (component
level; the string level is reduced to this below). -/
theorem roundTrip_value : ∀ (B : Nat) (c : JValue) (F : JFields) (k : String),
    jsize c ≤ B →
    F.nodupKeys = true → optGood (F.getKey k) = true → good c = true →
    compat (F.getKey k) c = true →
    ∃ r, applyListRaw (.obj F)
        ((patchesCV (F.getKey k) c).map (fun pr => (k :: pr.1, pr.2))) =
        some (.obj (F.setKey k r)) ∧ isEqual r c = true := by
  intro B
  induction B with
  | zero =>
      intro c F k hsz
      have := jsize_pos c
      omega
  | succ B ihB =>
      intro c F k hsz hnodF hgoodO hgood hcompat
      simp only [good, Bool.and_eq_true] at hgood
      cases c with
      | null => simp [nullFree] at hgood
      | bool b =>
          exact roundTrip_else F k (.bool b) (B + 1) rfl hsz hgood.1 hgood.2
      | num x =>
          exact roundTrip_else F k (.num x) (B + 1) rfl hsz hgood.1 hgood.2
      | str s =>
          exact roundTrip_else F k (.str s) (B + 1) rfl hsz hgood.1 hgood.2
      | arr xs =>
          exact roundTrip_else F k (.arr xs) (B + 1) rfl hsz hgood.1 hgood.2
      | obj cf =>
          by_cases ht : optTruthy (F.getKey k) = true
          · obtain ⟨ov, hov⟩ : ∃ ov, F.getKey k = some ov := by
              cases hF : F.getKey k with
              | none => rw [hF] at ht; cases ht
              | some ov => exact ⟨ov, rfl⟩
            rw [hov] at ht
            cases ov with
            | obj of0 =>
                -- components of the good/compat hypotheses
                have hgoodov : good (.obj of0) = true := by
                  rw [hov] at hgoodO
                  exact hgoodO
                have hparts : nullFreeFields of0 = true ∧
                    of0.nodupKeys = true ∧ wfFields of0 = true := by
                  simpa [good, nullFree, wfJ, Bool.and_eq_true] using hgoodov
                have hcompF : compatFields of0 cf = true := by
                  rw [hov] at hcompat
                  simpa [compat] using hcompat
                have hcfparts : nullFreeFields cf = true ∧
                    cf.nodupKeys = true ∧ wfFields cf = true := by
                  refine ⟨by simpa [nullFree] using hgood.1, ?_, ?_⟩ <;>
                    · have := hgood.2
                      simp only [wfJ, Bool.and_eq_true] at this
                      first | exact this.1 | exact this.2
                have hszf : jsizeFields cf ≤ B := by
                  simp only [jsize] at hsz
                  omega
                obtain ⟨Fend, happF, hnodEnd, hpt, hun⟩ :=
                  roundTrip_fields B ihB cf of0 of0 hszf hparts.2.1
                    (fun _ _ => rfl) hgoodov hcfparts.2.1 hcfparts.1
                    hcfparts.2.2 hcompF
                have hdels : applyListRaw (.obj Fend)
                    (deletionPatchesC (some (.obj of0)) cf) =
                    some (.obj ((of0.keys.filter
                      (fun k2 => !cf.hasKey k2)).foldl JFields.delKey Fend)) := by
                  rw [deletionPatchesC_eq_map hparts.1, applyListRaw_deletes]
                have hpatch : patchesCV (F.getKey k) (.obj cf) =
                    patchesCFields (some (.obj of0)) cf ++
                    deletionPatchesC (some (.obj of0)) cf := by
                  rw [hov]
                  simp only [patchesCV]
                  rw [if_pos (show optTruthy (some (JValue.obj of0)) = true
                    from rfl)]
                have happOv : applyListRaw (.obj of0)
                    (patchesCFields (some (.obj of0)) cf ++
                      deletionPatchesC (some (.obj of0)) cf) =
                    some (.obj ((of0.keys.filter
                      (fun k2 => !cf.hasKey k2)).foldl JFields.delKey Fend)) := by
                  rw [applyListRaw_append, happF, Option.some_bind', hdels]
                have hnonempty : ∀ p ∈ patchesCFields (some (.obj of0)) cf ++
                    deletionPatchesC (some (.obj of0)) cf, p.1 ≠ [] := by
                  intro p hp
                  rcases List.mem_append.1 hp with hp | hp
                  · exact patchesCFields_paths_ne_nil cf _ p hp
                  · exact deletionPatchesC_paths_ne_nil hp
                have hframe := frame_lemma _ F k (.obj of0) _ hov hnonempty happOv
                refine ⟨.obj ((of0.keys.filter
                  (fun k2 => !cf.hasKey k2)).foldl JFields.delKey Fend), ?_, ?_⟩
                · rw [hpatch]
                  exact hframe
                · -- structural equality of the final fields with `cf`
                  have hFinNodup : ((of0.keys.filter
                      (fun k2 => !cf.hasKey k2)).foldl JFields.delKey
                        Fend).nodupKeys = true :=
                    nodup_foldl_delKey _ Fend hnodEnd
                  have hinCf : ∀ k2, k2 ∈ cf.keys →
                      ∃ rk cv, ((of0.keys.filter
                        (fun k2 => !cf.hasKey k2)).foldl JFields.delKey
                          Fend).getKey k2 = some rk ∧
                        cf.getKey k2 = some cv ∧ isEqual rk cv = true := by
                    intro k2 hk2
                    have hnotdel : k2 ∉ of0.keys.filter
                        (fun k3 => !cf.hasKey k3) := by
                      intro hm
                      have := (List.mem_filter.1 hm).2
                      rw [(JFields.hasKey_iff_mem_keys cf k2).2 hk2] at this
                      cases this
                    obtain ⟨rk, cv, h1, h2, h3⟩ := hpt k2 hk2
                    exact ⟨rk, cv, by
                      rw [getKey_foldl_delKey_not_mem _ _ _ hnotdel, h1], h2, h3⟩
                  have houtCf : ∀ k2, k2 ∉ cf.keys →
                      ((of0.keys.filter (fun k3 => !cf.hasKey k3)).foldl
                        JFields.delKey Fend).getKey k2 = none := by
                    intro k2 hk2
                    by_cases hof : k2 ∈ of0.keys
                    · refine getKey_foldl_delKey_mem _ _ _ hnodEnd ?_
                      refine List.mem_filter.2 ⟨hof, ?_⟩
                      cases hc : cf.hasKey k2 with
                      | false => rfl
                      | true =>
                          exact absurd ((JFields.hasKey_iff_mem_keys cf k2).1 hc)
                            hk2
                    · have hnotdel : k2 ∉ of0.keys.filter
                          (fun k3 => !cf.hasKey k3) :=
                        fun hm => hof (List.mem_filter.1 hm).1
                      rw [getKey_foldl_delKey_not_mem _ _ _ hnotdel, hun k2 hk2]
                      refine JFields.getKey_eq_none_of_not_hasKey ?_
                      cases hc : of0.hasKey k2 with
                      | false => rfl
                      | true =>
                          exact absurd ((JFields.hasKey_iff_mem_keys of0 k2).1 hc)
                            hof
                  simp only [isEqual, Bool.and_eq_true, beq_iff_eq]
                  constructor
                  · refine JFields.length_eq_of_hasKey_eq hFinNodup
                      hcfparts.2.1 ?_
                    intro k2
                    by_cases hk2 : k2 ∈ cf.keys
                    · obtain ⟨rk, cv, h1, _, _⟩ := hinCf k2 hk2
                      rw [(JFields.hasKey_iff_mem_keys cf k2).2 hk2]
                      show ((of0.keys.filter (fun k3 => !cf.hasKey k3)).foldl
                        JFields.delKey Fend |>.getKey k2).isSome = true
                      rw [h1]
                      rfl
                    · have hR : cf.hasKey k2 = false := by
                        cases hc : cf.hasKey k2 with
                        | false => rfl
                        | true =>
                            exact absurd
                              ((JFields.hasKey_iff_mem_keys cf k2).1 hc) hk2
                      rw [hR]
                      show ((of0.keys.filter (fun k3 => !cf.hasKey k3)).foldl
                        JFields.delKey Fend |>.getKey k2).isSome = false
                      rw [houtCf k2 hk2]
                      rfl
                  · refine isEqualFields_of_pointwise _ cf hFinNodup ?_
                    intro k2 v2 hv2
                    by_cases hk2 : k2 ∈ cf.keys
                    · obtain ⟨rk, cv, h1, h2, h3⟩ := hinCf k2 hk2
                      rw [h1] at hv2
                      injection hv2 with hv2
                      subst hv2
                      exact ⟨cv, h2, h3⟩
                    · rw [houtCf k2 hk2] at hv2
                      cases hv2
            | null => cases ht
            | bool b =>
                rw [hov] at hcompat
                simp only [compat, optTruthy] at hcompat ht
                rw [ht] at hcompat
                cases hcompat
            | num x =>
                rw [hov] at hcompat
                simp only [compat, optTruthy] at hcompat ht
                rw [ht] at hcompat
                cases hcompat
            | str s =>
                rw [hov] at hcompat
                simp only [compat, optTruthy] at hcompat ht
                rw [ht] at hcompat
                cases hcompat
            | arr xs =>
                rw [hov] at hcompat
                simp only [compat, optTruthy] at hcompat ht
                rw [ht] at hcompat
                cases hcompat
          · have hpat : patchesCV (F.getKey k) (.obj cf) =
                if isEqualO (F.getKey k) (some (.obj cf)) = true then []
                else [([], .obj cf)] := by
              simp only [patchesCV]
              rw [if_neg ht]
            exact roundTrip_else F k (.obj cf) (B + 1) hpat hsz hgood.1 hgood.2

/-! ## String-level bridges -/

theorem mk_toList (s : String) : String.mk s.toList = s := by
  cases s
  rfl

theorem toList_append (s t : String) :
    (s ++ t).toList = s.toList ++ t.toList := by
  cases s
  cases t
  rfl

theorem encSlash_no_slash : ∀ (cs : List Char), ∀ c ∈ encSlash cs, c ≠ '/' := by
  intro cs
  induction cs with
  | nil => intro c hc; cases hc
  | cons c2 cs ih =>
      intro c hc
      by_cases h2 : c2 = '/'
      · rw [encSlash, if_pos h2] at hc
        rcases List.mem_cons.1 hc with he | hc
        · subst he; decide
        · rcases List.mem_cons.1 hc with he | hc
          · subst he; decide
          · exact ih c hc
      · rw [encSlash, if_neg h2] at hc
        rcases List.mem_cons.1 hc with he | hc
        · subst he; exact h2
        · exact ih c hc

theorem pathSafe_no_slash {k : String} (hk : pathSafe k = true) :
    ∀ c ∈ k.toList, c ≠ '/' := by
  intro c hc
  simp only [pathSafe, List.all_eq_true] at hk
  have := hk c hc
  simp only [Bool.and_eq_true, decide_eq_true_eq] at this
  exact this.1

theorem pathSafe_no_tilde {k : String} (hk : pathSafe k = true) :
    ∀ c ∈ k.toList, c ≠ '~' := by
  intro c hc
  simp only [pathSafe, List.all_eq_true] at hk
  have := hk c hc
  simp only [Bool.and_eq_true, decide_eq_true_eq] at this
  exact this.2

theorem splitOnSlash_no_slash :
    ∀ (cs : List Char), (∀ c ∈ cs, c ≠ '/') → splitOnSlash cs = [cs] := by
  intro cs
  induction cs with
  | nil => intro _; rfl
  | cons c cs ih =>
      intro h
      rw [splitOnSlash, if_neg (h c (List.mem_cons_self c cs)),
        ih (fun c2 hc2 => h c2 (List.mem_cons_of_mem c hc2))]

theorem splitOnSlash_sep :
    ∀ (xs ys : List Char), (∀ c ∈ xs, c ≠ '/') →
      splitOnSlash (xs ++ '/' :: ys) = xs :: splitOnSlash ys := by
  intro xs
  induction xs with
  | nil =>
      intro ys _
      rw [List.nil_append, splitOnSlash, if_pos rfl]
  | cons c xs ih =>
      intro ys h
      rw [List.cons_append, splitOnSlash,
        if_neg (h c (List.mem_cons_self c xs)),
        ih ys (fun c2 hc2 => h c2 (List.mem_cons_of_mem c hc2))]

theorem joinPath_toList : ∀ (comps : List String) (p : String),
    (joinPath p comps).toList = p.toList ++ flatComps comps := by
  intro comps
  induction comps with
  | nil => intro p; simp [joinPath, flatComps]
  | cons k ks ih =>
      intro p
      show (joinPath (p ++ "/" ++ encodeKey k) ks).toList = _
      rw [ih, toList_append, toList_append]
      simp [flatComps]

theorem splitOnSlash_flatComps :
    ∀ (comps : List String) (xs : List Char), (∀ c ∈ xs, c ≠ '/') →
      splitOnSlash (xs ++ flatComps comps) =
        xs :: comps.map (fun k => (encodeKey k).toList) := by
  intro comps
  induction comps with
  | nil =>
      intro xs h
      rw [flatComps, List.append_nil, splitOnSlash_no_slash xs h, List.map_nil]
  | cons k ks ih =>
      intro xs h
      rw [flatComps, splitOnSlash_sep xs _ h, List.map_cons]
      rw [show ((encodeKey k).toList ++ flatComps ks) =
        (encSlash (encTilde k.toList) ++ flatComps ks) from rfl]
      rw [ih (encSlash (encTilde k.toList)) (encSlash_no_slash _)]
      rfl

theorem decSlashAux_no_tilde :
    ∀ (cs : List Char), (∀ c ∈ cs, c ≠ '~') → decSlashAux false cs = cs := by
  intro cs
  induction cs with
  | nil => intro _; rfl
  | cons c cs ih =>
      intro h
      rw [decSlashAux, if_neg (h c (List.mem_cons_self c cs)),
        ih (fun c2 hc2 => h c2 (List.mem_cons_of_mem c hc2))]

theorem decTildeAux_no_tilde :
    ∀ (cs : List Char), (∀ c ∈ cs, c ≠ '~') → decTildeAux false cs = cs := by
  intro cs
  induction cs with
  | nil => intro _; rfl
  | cons c cs ih =>
      intro h
      rw [decTildeAux, if_neg (h c (List.mem_cons_self c cs)),
        ih (fun c2 hc2 => h c2 (List.mem_cons_of_mem c hc2))]

theorem decodeKey_safe {k : String} (hk : pathSafe k = true) :
    decodeKey k = k := by
  unfold decodeKey
  rw [decSlashAux_no_tilde _ (pathSafe_no_tilde hk),
    decTildeAux_no_tilde _ (pathSafe_no_tilde hk), mk_toList]

/-- Decoding undoes encoding, string level (shared helper). -/
theorem decode_encode_str (c : String) : decodeKey (encodeKey c) = c := by
  show String.mk (decTildeAux false (decSlashAux false
    (String.mk (encSlash (encTilde c.toList))).toList)) = c
  rw [show (String.mk (encSlash (encTilde c.toList))).toList =
    encSlash (encTilde c.toList) from rfl, dec_enc, mk_toList]

theorem applyComps_decode : ∀ (comps : List String) (x v : JValue),
    applyComps x comps v = applyCompsRaw x (comps.map decodeKey) v := by
  intro comps
  induction comps with
  | nil => intro x v; rfl
  | cons k rest ih =>
      intro x v
      cases rest with
      | nil => rfl
      | cons k2 rest2 =>
          show applyComps x (k :: k2 :: rest2) v =
            applyCompsRaw x (decodeKey k :: decodeKey k2 ::
              rest2.map decodeKey) v
          by_cases htr : x.truthy = true
          · simp only [applyComps, applyCompsRaw, htr, Bool.not_true,
              Bool.false_eq_true, if_false]
            cases hl : lookupProp x (decodeKey k) with
            | none => rfl
            | some child =>
                show Option.map (setProp x (decodeKey k))
                    (applyComps child (k2 :: rest2) v) =
                  Option.map (setProp x (decodeKey k))
                    (applyCompsRaw child
                      (decodeKey k2 :: rest2.map decodeKey) v)
                have := ih child v
                rw [List.map_cons] at this
                rw [this]
          · have hf : x.truthy = false := by
              cases hx : x.truthy with
              | false => rfl
              | true => rw [hx] at htr; exact absurd rfl htr
            simp only [applyComps, applyCompsRaw, hf, Bool.not_false, if_true]

theorem applyPatches_cons (x : JValue) (q : String × JValue)
    (qs : List (String × JValue)) :
    applyPatches x (q :: qs) =
      (applyPatch x q.1 q.2).bind (fun y => applyPatches y qs) := rfl

theorem applyPatch_eq_raw (x : JValue) {k : String} (hk : pathSafe k = true)
    (comps : List String) (v : JValue) :
    applyPatch x (joinPath k comps) v = applyCompsRaw x (k :: comps) v := by
  unfold applyPatch
  rw [joinPath_toList comps k,
    splitOnSlash_flatComps comps k.toList (pathSafe_no_slash hk),
    List.map_cons, mk_toList, List.map_map]
  have hmapcomp : (String.mk ∘ fun k2 => (encodeKey k2).toList) = encodeKey := by
    funext k2
    exact mk_toList (encodeKey k2)
  rw [hmapcomp, applyComps_decode, List.map_cons, decodeKey_safe hk,
    List.map_map]
  have hdec : (decodeKey ∘ encodeKey) = id := by
    funext c
    exact decode_encode_str c
  rw [hdec, List.map_id]

theorem applyPatches_bridge {k : String} (hk : pathSafe k = true) :
    ∀ (ps : List (List String × JValue)) (x : JValue),
      applyPatches x (ps.map (fun pr => (joinPath k pr.1, pr.2))) =
        applyListRaw x (ps.map (fun pr => (k :: pr.1, pr.2))) := by
  intro ps
  induction ps with
  | nil => intro x; rfl
  | cons p ps ih =>
      intro x
      rw [List.map_cons, List.map_cons, applyPatches_cons, applyListRaw_cons]
      show (applyPatch x (joinPath k p.1) p.2).bind _ = _
      rw [applyPatch_eq_raw x hk p.1 p.2]
      cases hx : applyCompsRaw x (k :: p.1) p.2 with
      | none => rfl
      | some y =>
          rw [Option.some_bind', Option.some_bind']
          exact ih y

theorem filterMap_ext {a b : Type} (l : List a) (f g : a → Option b)
    (h : ∀ x ∈ l, f x = g x) : l.filterMap f = l.filterMap g := by
  induction l with
  | nil => rfl
  | cons x l ih =>
      rw [List.filterMap_cons, List.filterMap_cons,
        h x (List.mem_cons_self x l),
        ih (fun y hy => h y (List.mem_cons_of_mem x hy))]

theorem bridge_deletions (path : String) (o : Option JValue) (cf : JFields) :
    deletionPatches path o cf =
      (deletionPatchesC o cf).map (fun pr => (joinPath path pr.1, pr.2)) := by
  unfold deletionPatches deletionPatchesC
  rw [List.map_filterMap]
  refine filterMap_ext _ _ _ ?_
  intro k2 _
  by_cases hg : isEqualO (olookup o k2) (some JValue.null) = true
  · rw [if_pos hg, if_pos hg]
    rfl
  · rw [if_neg hg, if_neg hg]
    rfl

theorem bridge_else (path : String) (o : Option JValue) (c : JValue)
    (h1 : makePatchesV path o c =
      if isEqualO o (some c) = true then [] else [(path, c)])
    (h2 : patchesCV o c =
      if isEqualO o (some c) = true then [] else [([], c)]) :
    makePatchesV path o c =
      (patchesCV o c).map (fun pr => (joinPath path pr.1, pr.2)) := by
  rw [h1, h2]
  by_cases he : isEqualO o (some c) = true
  · rw [if_pos he, if_pos he]
    rfl
  · rw [if_neg he, if_neg he]
    rfl

theorem bridge_fields (B : Nat)
    (IH : ∀ c, jsize c ≤ B → ∀ (path : String) (o : Option JValue),
      makePatchesV path o c =
        (patchesCV o c).map (fun pr => (joinPath path pr.1, pr.2))) :
    ∀ cf, jsizeFields cf ≤ B → ∀ (path : String) (o : Option JValue),
      makePatchesFields path o cf =
        (patchesCFields o cf).map (fun pr => (joinPath path pr.1, pr.2)) := by
  intro cf
  induction cf using JFields.recTailFields with
  | nil => intro _ path o; rfl
  | cons k v tl ih =>
      intro hsz path o
      simp only [jsizeFields] at hsz
      simp only [makePatchesFields, patchesCFields]
      rw [List.map_append, List.map_map]
      have hcomp : ((fun pr : List String × JValue =>
          (joinPath path pr.1, pr.2)) ∘
          (fun pr : List String × JValue => (k :: pr.1, pr.2))) =
          (fun pr : List String × JValue =>
            (joinPath (path ++ "/" ++ encodeKey k) pr.1, pr.2)) := by
        funext pr
        rfl
      rw [hcomp, ← IH v (by omega) (path ++ "/" ++ encodeKey k) (olookup o k),
        ih (by omega) path o]

theorem bridge_value : ∀ (B : Nat) (c : JValue), jsize c ≤ B →
    ∀ (path : String) (o : Option JValue),
      makePatchesV path o c =
        (patchesCV o c).map (fun pr => (joinPath path pr.1, pr.2)) := by
  intro B
  induction B with
  | zero =>
      intro c h
      have := jsize_pos c
      omega
  | succ B ihB =>
      intro c hsz path o
      cases c with
      | null => exact bridge_else path o .null rfl rfl
      | bool b => exact bridge_else path o (.bool b) rfl rfl
      | num x => exact bridge_else path o (.num x) rfl rfl
      | str s => exact bridge_else path o (.str s) rfl rfl
      | arr xs => exact bridge_else path o (.arr xs) rfl rfl
      | obj cf =>
          simp only [makePatchesV, patchesCV]
          by_cases ht : optTruthy o = true
          · rw [if_pos ht, if_pos ht, List.map_append]
            have hszf : jsizeFields cf ≤ B := by
              simp only [jsize] at hsz
              omega
            rw [bridge_fields B ihB cf hszf path o, bridge_deletions path o cf]
          · rw [if_neg ht, if_neg ht]
            by_cases he : isEqualO o (some (.obj cf)) = true
            · rw [if_pos he, if_pos he]
              rfl
            · rw [if_neg he, if_neg he]
              rfl

/-! ## Claim C1 -/

/-- Claim C1, counterexample: with `a = { x: 1 }` and `b = { x: 2 }` (both
plain objects), `makePatches( "", p, a, b )` emits the single path `"/x"`.
Its leading empty component makes `applyPatch` read `object[ "" ]`, obtain
`undefined`, and silently drop the patch, so the result is `a` unchanged —
not structurally equal to `b`.  The round trip as literally stated by the
claim therefore fails. -/
theorem patch_round_trip_counterexample :
    isObj cexOriginal = true ∧ isObj cexCurrent = true ∧
    makePatches "" (some cexOriginal) (some cexCurrent) =
      [("/x", .num 2)] ∧
    applyPatches cexOriginal
      (makePatches "" (some cexOriginal) (some cexCurrent)) =
      some cexOriginal ∧
    isEqual cexOriginal cexCurrent = false :=
  ⟨rfl, rfl, rfl, rfl, rfl⟩

/-- Claim C1 (amended): the patch round trip holds for patches rooted at an
attribute key, the way `makeUpdate` actually builds and the server applies
them.  For every key `k` free of `/` and `~`, and values `a`, `b` that are
both plain objects or both primitives, hold no `null` member values, have
duplicate-free object keys, and are compatible (wherever `b` carries a plain
object, `a` does not carry a truthy non-object), running
`makePatches( k, p, a, b )` and applying every `(path → value)` entry of `p`
with `applyPatch` to the wrapper `{ k: a }` yields `{ k: r }` with `r`
structurally equal to `b`.  Arrays are treated atomically throughout. -/
theorem patch_round_trip (k : String) (a b : JValue)
    (hk : pathSafe k = true)
    (_hshape : (isObj a = true ∧ isObj b = true) ∨
      (isPrimitive a = true ∧ isPrimitive b = true))
    (hga : good a = true) (hgb : good b = true)
    (hcompat : compat (some a) b = true) :
    ∃ r, applyPatches (.obj (.cons k a .nil))
        (makePatches k (some a) (some b)) =
        some (.obj (.cons k r .nil)) ∧ isEqual r b = true := by
  have hF : (JFields.cons k a JFields.nil).getKey k = some a := by
    simp [JFields.getKey]
  obtain ⟨r, happ, hr⟩ := roundTrip_value (jsize b) b
    (JFields.cons k a JFields.nil) k le_rfl rfl
    (by rw [hF]; exact hga) hgb (by rw [hF]; exact hcompat)
  rw [hF] at happ
  have hset : (JFields.cons k a JFields.nil).setKey k r =
      JFields.cons k r JFields.nil := by
    simp [JFields.setKey]
  rw [hset] at happ
  refine ⟨r, ?_, hr⟩
  show applyPatches (.obj (.cons k a .nil)) (makePatchesV k (some a) b) = _
  rw [bridge_value (jsize b) b le_rfl k (some a),
    applyPatches_bridge hk (patchesCV (some a) b) _]
  exact happ

/-- Witness for the amended claim C1, at the concrete diff from the spec's
own scenario: `keywords` going from `{ $seen: true }` to `{}`. -/
theorem patch_round_trip_witness :
    ∃ r, applyPatches (.obj (.cons "keywords" witOriginal .nil))
        (makePatches "keywords" (some witOriginal) (some witCurrent)) =
        some (.obj (.cons "keywords" r .nil)) ∧
      isEqual r witCurrent = true :=
  patch_round_trip "keywords" witOriginal witCurrent (by decide)
    (Or.inl ⟨rfl, rfl⟩) rfl rfl rfl

/-! ## Claim C9 -/

/-- Claim C9: patch path escaping round-trips.  For every key string `k`,
decoding the encoded component returns `k`, where encoding substitutes `~`
with `~0` and then `/` with `~1`, and decoding applies the reverse
substitutions in the reverse order. -/
theorem patch_key_escaping_round_trips (k : String) :
    decodeKey (encodeKey k) = k := by
  show String.mk (decTildeAux false (decSlashAux false
    (encSlash (encTilde k.toList)))) = k
  rw [dec_enc]
  cases k
  rfl


/-! ## Claim C2 -/

/-- Claim C2, counterexample: a response list with one `serverUnavailable`
error and one ordinary response.  Not *every* response carries
`serverUnavailable`, yet the code (which uses `methodResponses.some(
serverUnavailable )`) still treats the reply as a connection failure and
retries instead of dispatching. -/
theorem serverUnavailable_some_counterexample :
    [suResponse, okResponse].all serverUnavailable = false ∧
    [suResponse, okResponse].any serverUnavailable = true ∧
    (ioDidSucceed (some [suResponse, okResponse]) none "s0" true).retriedViaAuth
      = true ∧
    (ioDidSucceed (some [suResponse, okResponse]) none "s0" true).dispatched
      = none :=
  ⟨rfl, rfl, rfl, rfl⟩

/-- Claim C2 (amended): on a 2xx response the reply is treated as a
connection failure and handed to auth's retry scheduler exactly when
`methodResponses` is absent or *some* method response carries
`type = serverUnavailable`, and `willRetry` is true; otherwise the
responses (an absent list read as `[]`) are dispatched normally. -/
theorem serverUnavailable_retry (mrs : Option (List MethodResponse))
    (ss : Option String) (authState : String) (willRetry : Bool) :
    ((ioDidSucceed mrs ss authState willRetry).retriedViaAuth = true ↔
      ((mrs = none ∨ (mrs.getD []).any serverUnavailable = true) ∧
        willRetry = true)) ∧
    ((ioDidSucceed mrs ss authState willRetry).retriedViaAuth = false →
      (ioDidSucceed mrs ss authState willRetry).dispatched =
        some (mrs.getD [])) := by
  by_cases hb : ((mrs.isNone || (mrs.getD []).any serverUnavailable) &&
      willRetry) = true
  · have h1 : ioDidSucceed mrs ss authState willRetry =
        { retriedViaAuth := true, dispatched := none,
          sessionRefetched := false } := by
      unfold ioDidSucceed
      rw [if_pos hb]
    rw [h1]
    simp only [Bool.and_eq_true, Bool.or_eq_true,
      Option.isNone_iff_eq_none] at hb
    exact ⟨⟨fun _ => hb, fun _ => rfl⟩, fun h => absurd h (by simp)⟩
  · have h1 : ioDidSucceed mrs ss authState willRetry =
        { retriedViaAuth := false, dispatched := some (mrs.getD []),
          sessionRefetched := ss.isSome && ss != some authState } := by
      unfold ioDidSucceed
      rw [if_neg hb]
    rw [h1]
    refine ⟨⟨fun h => absurd h (by simp), fun hr => ?_⟩, fun _ => rfl⟩
    exfalso
    apply hb
    simp only [Bool.and_eq_true, Bool.or_eq_true, Option.isNone_iff_eq_none]
    exact ⟨hr.1, hr.2⟩

/-! ## Claim C6 -/

/-- Claim C6, counterexample: status 401 is outside the statuses the claim
lists, so by the claim's "any other failure status" rule it should retry
via auth (`connectionFailed`) when `willRetry` is true and discard
otherwise.  The code instead calls `auth.didLoseAuthentication` and never
discards a 401. -/
theorem http_failure_counterexample :
    (ioDidFail 401 true).authEffect = some .didLoseAuthentication ∧
    some AuthEffect.didLoseAuthentication ≠
      some (AuthEffect.connectionFailed none) ∧
    (ioDidFail 401 true).discarded = false ∧
    (ioDidFail 401 false).discarded = false ∧
    (401 : Int) ∉ ([400, 413, 500, 429, 502, 503, 504] : List Int) :=
  ⟨rfl, by decide, rfl, rfl, by decide⟩

/-- Claim C6 (amended): 400, 413 and 500 discard (400/413 logging the bad
request, 500 alerting the user); every discard path flushes the pending
callbacks with empty responses and clears the in-flight state; 429, 502,
503 and 504 report a connection failure with a 30-second backoff hint
without discarding; 401 re-authenticates and 404 refetches the session,
neither discarding; any remaining status retries via auth when `willRetry`
is true and otherwise discards (flushing callbacks). -/
theorem http_failure_classifier (status : Int) (willRetry : Bool) :
    ((status = 400 ∨ status = 413) →
      (ioDidFail status willRetry).discarded = true ∧
      (ioDidFail status willRetry).loggedBadRequest = true) ∧
    (status = 500 → (ioDidFail status willRetry).discarded = true ∧
      (ioDidFail status willRetry).alerted = true) ∧
    ((ioDidFail status willRetry).callbacksFlushedEmpty =
      (ioDidFail status willRetry).discarded) ∧
    ((ioDidFail status willRetry).inFlightCleared =
      (ioDidFail status willRetry).discarded) ∧
    ((status = 429 ∨ status = 502 ∨ status = 503 ∨ status = 504) →
      (ioDidFail status willRetry).authEffect =
        some (.connectionFailed (some 30)) ∧
      (ioDidFail status willRetry).discarded = false) ∧
    (status = 401 → (ioDidFail status willRetry).authEffect =
      some .didLoseAuthentication ∧
      (ioDidFail status willRetry).discarded = false) ∧
    (status = 404 → (ioDidFail status willRetry).authEffect =
      some .fetchSession ∧
      (ioDidFail status willRetry).discarded = false) ∧
    (status ≠ 400 → status ≠ 413 → status ≠ 401 → status ≠ 404 →
      status ≠ 429 → status ≠ 502 → status ≠ 503 → status ≠ 504 →
      status ≠ 500 →
      (willRetry = true →
        (ioDidFail status willRetry).authEffect =
          some (.connectionFailed none) ∧
        (ioDidFail status willRetry).discarded = false) ∧
      (willRetry = false →
        (ioDidFail status willRetry).discarded = true ∧
        (ioDidFail status willRetry).callbacksFlushedEmpty = true)) := by
  refine ⟨?_, ?_, rfl, rfl, ?_, ?_, ?_, ?_⟩
  · rintro (rfl | rfl) <;> exact ⟨rfl, rfl⟩
  · rintro rfl; exact ⟨rfl, rfl⟩
  · rintro (rfl | rfl | rfl | rfl) <;> exact ⟨rfl, rfl⟩
  · rintro rfl; exact ⟨rfl, rfl⟩
  · rintro rfl; exact ⟨rfl, rfl⟩
  · intro h1 h2 h3 h4 h5 h6 h7 h8 h9
    have e1 : ¬(status = 400 ∨ status = 413) := by tauto
    have e4 : ¬(status = 429 ∨ status = 502 ∨ status = 503 ∨ status = 504) := by
      tauto
    constructor
    · rintro rfl
      have hval : ioDidFail status true =
          { discarded := false,
            authEffect := some (.connectionFailed none),
            alerted := false, loggedBadRequest := false,
            callbacksFlushedEmpty := false, inFlightCleared := false } := by
        unfold ioDidFail
        rw [if_neg e1, if_neg h3, if_neg h4, if_neg e4, if_neg h9]
        rfl
      rw [hval]
      exact ⟨rfl, rfl⟩
    · rintro rfl
      have hval : ioDidFail status false =
          { discarded := true, authEffect := none,
            alerted := false, loggedBadRequest := false,
            callbacksFlushedEmpty := true, inFlightCleared := true } := by
        unfold ioDidFail
        rw [if_neg e1, if_neg h3, if_neg h4, if_neg e4, if_neg h9]
        rfl
      rw [hval]
      exact ⟨rfl, rfl⟩

/-- Witness for the amended claim C6, at a backoff status and a
generic-retry status. -/
theorem http_failure_classifier_witness :
    ((ioDidFail 429 true).authEffect =
      some (.connectionFailed (some 30)) ∧
      (ioDidFail 429 true).discarded = false) ∧
    ((ioDidFail 418 true).authEffect = some (.connectionFailed none) ∧
      (ioDidFail 418 true).discarded = false) :=
  ⟨(http_failure_classifier 429 true).2.2.2.2.1 (Or.inl rfl),
   ((http_failure_classifier 418 true).2.2.2.2.2.2.2 (by decide) (by decide)
     (by decide) (by decide) (by decide) (by decide) (by decide) (by decide)
     (by decide)).1 rfl⟩

/-! ## Claim C7 -/

/-- Claim C7: the adaptive `maxChanges` schedule.  On `hasMoreChanges`,
messages escalate 50 → 100 → 150 with a refetch after each step, and at the
ceiling synthesize the `cannotCalculateChanges` recovery and reset to 50;
threads escalate 30 → 100 → 120 the same way (dropping record fetching at
the first step) and reset to 30.  Without more changes the schedule resets
to its initial value. -/
theorem adaptive_changes_schedule :
    emailChangesHandler true 50 =
      { newMaxChanges := 100, fetchedMore := true,
        synthesizedCannotCalc := false } ∧
    emailChangesHandler true 100 =
      { newMaxChanges := 150, fetchedMore := true,
        synthesizedCannotCalc := false } ∧
    emailChangesHandler true 150 =
      { newMaxChanges := 50, fetchedMore := false,
        synthesizedCannotCalc := true } ∧
    (∀ m, emailChangesHandler false m =
      { newMaxChanges := 50, fetchedMore := false,
        synthesizedCannotCalc := false }) ∧
    threadUpdatesHandler true 30 true =
      { newMaxChanges := 100, newFetchRecords := false,
        fetchedMore := true, synthesizedCannotCalc := false } ∧
    threadUpdatesHandler true 100 false =
      { newMaxChanges := 120, newFetchRecords := false,
        fetchedMore := true, synthesizedCannotCalc := false } ∧
    threadUpdatesHandler true 120 false =
      { newMaxChanges := 30, newFetchRecords := true,
        fetchedMore := false, synthesizedCannotCalc := true } ∧
    (∀ m fr, threadUpdatesHandler false m fr =
      { newMaxChanges := 30, newFetchRecords := true,
        fetchedMore := false, synthesizedCannotCalc := false }) :=
  ⟨rfl, rfl, rfl, fun _ => rfl, rfl, rfl, rfl, fun _ _ => rfl⟩

/-! ## Claim C4 -/

/-- Claim C4, counterexample: with handlers `error_Foo/get` and
`error_serverFail` registered (and no `error_Foo/get_serverFail`), the claim
says only the first match in the most-specific-first order is invoked, i.e.
only `error_Foo/get`.  Because the `error_<type>` lookup sits outside the
inner `else` in the source, the code invokes both handlers. -/
theorem error_dispatch_counterexample :
    dispatchError ["error_Foo/get", "error_serverFail"] "Foo/get" "serverFail"
      = (["error_Foo/get", "error_serverFail"], true) ∧
    (["error_Foo/get", "error_serverFail"] : List String).length ≠ 1 :=
  ⟨rfl, by decide⟩

/-- Claim C4 (amended): `error_<Method>_<type>` alone, when registered,
handles the error.  Otherwise the first match among `error_<Method>` and
`error_/<verb>` is invoked, and *additionally* `error_<type>` is invoked
when registered; the call counts as unhandled (logged, no-op) exactly when
no handler at all was invoked. -/
theorem error_dispatch (registry : List String) (requestName errType : String) :
    (registry.contains ("error_" ++ requestName ++ "_" ++ errType) = true →
      dispatchError registry requestName errType =
        (["error_" ++ requestName ++ "_" ++ errType], true)) ∧
    (registry.contains ("error_" ++ requestName ++ "_" ++ errType) = false →
      (dispatchError registry requestName errType).1 =
        (if registry.contains ("error_" ++ requestName) then
          ["error_" ++ requestName]
        else if registry.contains ("error_" ++ sliceFromSlash requestName) then
          ["error_" ++ sliceFromSlash requestName]
        else []) ++
        (if registry.contains ("error_" ++ errType) then
          ["error_" ++ errType] else [])) ∧
    ((dispatchError registry requestName errType).2 = false ↔
      (dispatchError registry requestName errType).1 = []) := by
  by_cases h1 : registry.contains ("error_" ++ requestName ++ "_" ++ errType)
    = true
  · have hval : dispatchError registry requestName errType =
        (["error_" ++ requestName ++ "_" ++ errType], true) := by
      unfold dispatchError
      rw [if_pos h1]
    refine ⟨fun _ => hval, fun h => absurd h1 (by rw [h]; simp), ?_⟩
    rw [hval]
    simp
  · have h1f : registry.contains ("error_" ++ requestName ++ "_" ++ errType)
        = false := by
      cases hx : registry.contains ("error_" ++ requestName ++ "_" ++ errType)
      · rfl
      · exact absurd hx h1
    have hval : dispatchError registry requestName errType =
        ((if registry.contains ("error_" ++ requestName) then
            ["error_" ++ requestName]
          else if registry.contains
              ("error_" ++ sliceFromSlash requestName) then
            ["error_" ++ sliceFromSlash requestName]
          else []) ++
          (if registry.contains ("error_" ++ errType) then
            ["error_" ++ errType] else []),
         !((if registry.contains ("error_" ++ requestName) then
            ["error_" ++ requestName]
          else if registry.contains
              ("error_" ++ sliceFromSlash requestName) then
            ["error_" ++ sliceFromSlash requestName]
          else []) ++
          (if registry.contains ("error_" ++ errType) then
            ["error_" ++ errType] else [])).isEmpty) := by
      unfold dispatchError
      rw [if_neg h1]
    refine ⟨fun h => absurd h h1, fun _ => by rw [hval], ?_⟩
    rw [hval]
    simp [List.isEmpty_iff]

/-- Witness for the amended claim C4: the most-specific handler wins when
present; with only the method and type handlers, both run. -/
theorem error_dispatch_witness :
    dispatchError ["error_Foo/get_serverFail"] "Foo/get" "serverFail" =
      (["error_Foo/get_serverFail"], true) ∧
    (dispatchError ["error_Foo/get", "error_serverFail"] "Foo/get"
        "serverFail").1 =
      (["error_Foo/get"] ++ ["error_serverFail"]) :=
  ⟨(error_dispatch ["error_Foo/get_serverFail"] "Foo/get" "serverFail").1
      (by decide),
   by
    have h := (error_dispatch ["error_Foo/get", "error_serverFail"] "Foo/get"
      "serverFail").2.1 (by decide)
    rw [h]
    rfl⟩

/-! ## Claim C5 -/

/-- Claim C5: with `noPatch` false, a single-record update block makes the
set request whose `update` maps the record's primary-key value to exactly
the `makePatches` diff of the committed value against the current record
value, restricted to the attributes marked true in the change map and
excluding `accountId` (as `specUpdateFor` states); concretely, for before
`{subject:"a", keywords:{$seen:true}}` and after
`{subject:"b", keywords:{}}` with both attributes marked changed, the
emitted update for id `"m7"` is `{"subject": "b", "keywords/$seen": null}`. -/
theorem makeSetRequest_update_diff :
    (∀ (accountId primaryKey sk cid : String) (record committed : JValue)
      (change : List (String × Bool)),
      makeSetRequest { accountId := accountId,
                       primaryKey := primaryKey,
                       createStoreKeys := [],
                       createRecords := [],
                       update := { storeKeys := [sk],
                                   records := [record],
                                   committed := [committed],
                                   changes := [change],
                                   copyFromIds := [cid] },
                       destroyIds := [] } false =
      some { accountId := accountId,
             create := none,
             update := some [(jsKeyString (lookupProp record primaryKey),
               specUpdateFor record committed change)],
             destroy := none }) ∧
    makeSetRequest c5Change false =
      some { accountId := "A1",
             create := none,
             update := some [("m7", [("subject", .str "b"),
               ("keywords/$seen", JValue.null)])],
             destroy := none } :=
  ⟨fun _ _ _ _ _ _ _ => rfl, rfl⟩

/-! ## Claim C10 -/

/-- Claim C10, counterexample: type `X` carries an explicit precedence `0`
and type `Y` carries `-1`.  Ascending-precedence order (with only *absent*
types mapped to `-1`) would commit `a` (type `Y`, precedence `-1`) before
`b` (type `X`, precedence `0`); the code's `precedence[ typeId ] || -1`
collapses the explicit `0` to `-1` as well, and its descending sort plus
backwards iteration ends up invoking `b` first. -/
theorem commit_precedence_counterexample :
    (commitChanges c10Changes (some c10Precedence) ["X", "Y"] false).invoked
      = ["b", "a"] ∧
    lookupAssoc c10Precedence (typeIdOf c10Changes "b") = some 0 ∧
    lookupAssoc c10Precedence (typeIdOf c10Changes "a") = some (-1) ∧
    ¬((0 : Int) ≤ -1) :=
  ⟨rfl, rfl, rfl, by decide⟩

/-- Claim C10 (amended): when `commitPrecedence` is non-null, the per-type
commit handlers run in ascending order of *effective* precedence, where
both a type absent from the map and a type explicitly mapped to `0` (which
JavaScript `||` treats as falsy) count as precedence `-1`; the ids invoked
are exactly those whose type has a registered committer, and the optional
callback is queued exactly when at least one handler ran and a callback was
supplied. -/
theorem commit_precedence_order (changes : List (String × CommitChange))
    (p : List (String × Int)) (committers : List String)
    (hasCallback : Bool) :
    List.Pairwise (fun a b => effectivePrecedence p changes a ≤
        effectivePrecedence p changes b)
      (commitChanges changes (some p) committers hasCallback).invoked ∧
    (commitChanges changes (some p) committers hasCallback).invoked.Perm
      ((changes.map Prod.fst).filter
        (fun id => committers.contains (typeIdOf changes id))) ∧
    ((commitChanges changes (some p) committers hasCallback).handledAny =
      !(commitChanges changes (some p) committers
        hasCallback).invoked.isEmpty) ∧
    ((commitChanges changes (some p) committers
        hasCallback).callbackQueued =
      (!(commitChanges changes (some p) committers
        hasCallback).invoked.isEmpty && hasCallback)) := by
  letI : IsTotal String (fun a b => effectivePrecedence p changes b ≤
      effectivePrecedence p changes a) := ⟨fun _ _ => le_total _ _⟩
  letI : IsTrans String (fun a b => effectivePrecedence p changes b ≤
      effectivePrecedence p changes a) :=
    ⟨fun _ _ _ hab hbc => le_trans hbc hab⟩
  have hsorted := List.sorted_insertionSort
    (fun a b => effectivePrecedence p changes b ≤
      effectivePrecedence p changes a) (changes.map Prod.fst)
  have hinv : (commitChanges changes (some p) committers
      hasCallback).invoked =
      (List.insertionSort
        (fun a b => effectivePrecedence p changes b ≤
          effectivePrecedence p changes a)
        (changes.map Prod.fst)).reverse.filter
        (fun id => committers.contains (typeIdOf changes id)) := rfl
  refine ⟨?_, ?_, rfl, rfl⟩
  · rw [hinv]
    exact (List.pairwise_reverse.2 hsorted).filter _
  · rw [hinv]
    exact ((List.insertionSort _ _).reverse_perm.trans
      (List.perm_insertionSort _ _)).filter _

/-! ## Claim C3: pagination lemmas -/

/-- The shrink loop never moves the end at or below `start + 1`. -/
theorem shrinkEnd_ge (calls : List MethodCall) (start : Nat) :
    ∀ e, start + 1 ≤ e → start + 1 ≤ shrinkEnd calls start e := by
  intro e
  induction e with
  | zero => intro h; exact h
  | succ e ih =>
      intro h
      simp only [shrinkEnd]
      by_cases hc : (decide (start + 1 < e + 1) && hasRefAt calls (e + 1))
          = true
      · rw [if_pos hc]
        rw [Bool.and_eq_true, decide_eq_true_eq] at hc
        exact ih (by omega)
      · rw [if_neg hc]
        exact h

/-- What the shrink loop achieves: either the final end carries no
back-reference, or it was pushed all the way down to `start + 1` and every
index in `(start + 1, e]` carries one. -/
theorem shrinkEnd_spec (calls : List MethodCall) (start : Nat) :
    ∀ e, start + 1 ≤ e →
      hasRefAt calls (shrinkEnd calls start e) = false ∨
      (shrinkEnd calls start e = start + 1 ∧
        ∀ j, start + 1 < j → j ≤ e → hasRefAt calls j = true) := by
  intro e
  induction e with
  | zero => intro h; omega
  | succ e ih =>
      intro h
      simp only [shrinkEnd]
      by_cases hc : (decide (start + 1 < e + 1) && hasRefAt calls (e + 1))
          = true
      · rw [if_pos hc]
        rw [Bool.and_eq_true, decide_eq_true_eq] at hc
        rcases ih (by omega) with h3 | ⟨h3, h4⟩
        · exact Or.inl h3
        · refine Or.inr ⟨h3, fun j hj1 hj2 => ?_⟩
          rcases Nat.lt_or_ge j (e + 1) with hj | hj
          · exact h4 j hj1 (by omega)
          · have : j = e + 1 := by omega
            rw [this]
            exact hc.2
      · rw [if_neg hc]
        by_cases hr : hasRefAt calls (e + 1) = false
        · exact Or.inl hr
        · have hrt : hasRefAt calls (e + 1) = true := by
            cases hx : hasRefAt calls (e + 1)
            · exact absurd hx hr
            · rfl
          have hnlt : ¬(start + 1 < e + 1) := by
            intro hlt
            apply hc
            rw [Bool.and_eq_true, decide_eq_true_eq]
            exact ⟨hlt, hrt⟩
          refine Or.inr ⟨by omega, fun j hj1 hj2 => ?_⟩
          exact absurd hj1 (by omega)

/-- Every page advances: its end lies strictly beyond its start. -/
theorem pageEnd_gt (calls : List MethodCall) (m done : Nat) (hm : 1 ≤ m) :
    done < pageEnd calls m done := by
  unfold pageEnd
  by_cases hc : done + m < calls.length
  · rw [if_pos hc]
    have := shrinkEnd_ge calls done (done + m) (by omega)
    omega
  · rw [if_neg hc]
    omega

/-- Under the no-long-runs hypothesis, an interior page boundary never
lands on a back-reference carrier. -/
theorem pageEnd_safe (calls : List MethodCall) (m done : Nat)
    (hH : noLongRefRuns calls m = true) (hm : 1 ≤ m)
    (hlt : pageEnd calls m done < calls.length) :
    hasRefAt calls (pageEnd calls m done) = false := by
  unfold pageEnd at hlt ⊢
  by_cases hc : done + m < calls.length
  · rw [if_pos hc] at hlt ⊢
    rcases shrinkEnd_spec calls done (done + m) (by omega) with h | ⟨he, hall⟩
    · exact h
    · by_cases hr : hasRefAt calls (done + 1) = false
      · rw [he]
        exact hr
      · exfalso
        have hrt : hasRefAt calls (done + 1) = true := by
          cases hx : hasRefAt calls (done + 1)
          · exact absurd hx hr
          · rfl
        unfold noLongRefRuns at hH
        rw [List.all_eq_true] at hH
        have hi := hH (done + 1) (List.mem_range.2 (by omega))
        rw [Bool.or_eq_true] at hi
        rcases hi with hi | hi
        · rw [Bool.not_eq_true'] at hi
          rw [decide_eq_false_iff_not] at hi
          omega
        · rw [List.any_eq_true] at hi
          obtain ⟨j, hj, hjr⟩ := hi
          rw [List.mem_range] at hj
          rw [Bool.not_eq_true'] at hjr
          rcases Nat.eq_zero_or_pos j with rfl | hj1
          · rw [Nat.add_zero] at hjr
            rw [hrt] at hjr
            exact absurd hjr (by decide)
          · have hja := hall (done + 1 + j) (by omega) (by omega)
            rw [hja] at hjr
            exact absurd hjr (by decide)
  · rw [if_neg hc] at hlt
    omega

/-- The head of a drop. -/
theorem drop_head_get {α : Type} :
    ∀ (l : List α) (n : Nat), (l.drop n).head? = l.get? n := by
  intro l
  induction l with
  | nil => intro n; cases n <;> rfl
  | cons x xs ih =>
      intro n
      cases n with
      | zero => rfl
      | succ n => exact ih n

/-- The head of a nonempty take. -/
theorem take_head_pos {α : Type} (l : List α) (n : Nat) (h : 0 < n) :
    (l.take n).head? = l.head? := by
  cases l with
  | nil => cases n <;> rfl
  | cons x xs =>
      cases n with
      | zero => omega
      | succ n => rfl

/-- The head of a slice is the element at its start. -/
theorem sliceList_head {α : Type} (l : List α) (a b : Nat) (h : a < b) :
    (sliceList l a b).head? = l.get? a := by
  unfold sliceList
  rw [take_head_pos _ _ (by omega), drop_head_get]

/-- A slice glued back onto the remaining suffix is the original suffix. -/
theorem slice_append_drop {α : Type} (l : List α) (a b : Nat) (h : a ≤ b) :
    sliceList l a b ++ l.drop b = l.drop a := by
  unfold sliceList
  have h2 : (l.drop a).drop (b - a) = l.drop b := by
    rw [List.drop_drop]
    congr 1
    omega
  rw [← h2, List.take_append_drop]

/-- The pages of a batch tile it exactly: flattening the pages from any
`done` index restores `calls.drop done`. -/
theorem pagesAux_flatten (calls : List MethodCall) (m : Nat) (hm : 1 ≤ m) :
    ∀ (fuel done : Nat), calls.length ≤ done + fuel →
      (pagesAux calls m fuel done).flatten = calls.drop done := by
  intro fuel
  induction fuel with
  | zero =>
      intro done hfl
      simp only [pagesAux, List.flatten_nil]
      exact (List.drop_eq_nil_of_le (by omega)).symm
  | succ fuel ih =>
      intro done hfl
      simp only [pagesAux]
      by_cases hd : done < calls.length
      · rw [if_pos hd, List.flatten_cons]
        have he : done < pageEnd calls m done := pageEnd_gt calls m done hm
        rw [ih (pageEnd calls m done) (by omega)]
        exact slice_append_drop calls done (pageEnd calls m done) (by omega)
      · rw [if_neg hd]
        rw [List.flatten_nil]
        exact (List.drop_eq_nil_of_le (by omega)).symm

/-- If the page starts on a reference-free call, every page it opens (and
every later page) also starts on a reference-free call. -/
theorem pagesAux_heads_safe (calls : List MethodCall) (m : Nat)
    (hm : 1 ≤ m) (hH : noLongRefRuns calls m = true) :
    ∀ (fuel done : Nat),
      (done < calls.length → hasRefAt calls done = false) →
      ∀ pg ∈ pagesAux calls m fuel done, ∀ c, pg.head? = some c →
        hasResultReference c = false := by
  intro fuel
  induction fuel with
  | zero =>
      intro done _ pg hpg
      simp [pagesAux] at hpg
  | succ fuel ih =>
      intro done hsafe pg hpg
      simp only [pagesAux] at hpg
      by_cases hd : done < calls.length
      · rw [if_pos hd] at hpg
        rcases List.mem_cons.1 hpg with rfl | hpg2
        · intro c hc
          have he : done < pageEnd calls m done := pageEnd_gt calls m done hm
          rw [sliceList_head _ _ _ he] at hc
          have h0 := hsafe hd
          unfold hasRefAt at h0
          rw [hc] at h0
          exact h0
        · exact ih (pageEnd calls m done)
            (fun hlt => pageEnd_safe calls m done hH hm hlt) pg hpg2
      · rw [if_neg hd] at hpg
        simp at hpg

/-! ## Claim C3: claim theorems -/

/-- Claim C3, counterexample: a chain of two consecutive back-reference
calls with `maxCallsInRequest = 2`.  The shrink loop cannot move the end
below `start + 1`, so the second page begins with `callRef1`, a call whose
`#`-prefixed argument targets the immediately preceding call — which was
sent in the previous page.  The claimed invariant fails for chains as long
as the page size. -/
theorem pagination_counterexample :
    pages [callNoRef, callRef1, callRef2] 2 =
      [[callNoRef], [callRef1, callRef2]] ∧
    hasResultReference callRef1 = true ∧
    ¬([callNoRef, callRef1, callRef2].length ≤ 2) :=
  ⟨rfl, rfl, by decide⟩

/-- Claim C3 (amended): each page is `calls.slice(done, end)` with the end
shrunk while the tentative end call carries a `#`-prefixed argument (never
below one call), so the pages tile the batch exactly; and *provided no run
of consecutive back-reference calls is as long as `maxCallsInRequest`*, no
page after the first begins with a back-reference call (so no
back-reference chain is split when every reference targets the immediately
preceding call). -/
theorem pagination_slicing (calls : List MethodCall) (m : Nat)
    (hm : 1 ≤ m) (hH : noLongRefRuns calls m = true) :
    (pages calls m).flatten = calls ∧
    (∀ pg ∈ (pages calls m).drop 1, ∀ c, pg.head? = some c →
      hasResultReference c = false) := by
  unfold pages
  by_cases hc : calls.length ≤ m
  · rw [if_pos hc]
    constructor
    · simp
    · intro pg hpg
      simp at hpg
  · rw [if_neg hc]
    constructor
    · exact pagesAux_flatten calls m hm calls.length 0 (by omega)
    · have hlen : 0 < calls.length := by omega
      obtain ⟨n, hn⟩ : ∃ n, calls.length = n + 1 :=
        ⟨calls.length - 1, by omega⟩
      intro pg hpg
      rw [hn] at hpg
      simp only [pagesAux] at hpg
      rw [if_pos (show 0 < calls.length from hlen)] at hpg
      rw [List.drop_succ_cons, List.drop_zero] at hpg
      exact pagesAux_heads_safe calls m hm hH n (pageEnd calls m 0)
        (fun hlt => pageEnd_safe calls m 0 hH hm hlt) pg hpg

/-- Witness for the amended claim C3, on a batch whose back-reference runs
are shorter than the page size: the pages tile the batch, and the page
after the first starts with the reference-free call. -/
theorem pagination_slicing_witness :
    (pages [callNoRef, callRef1, callNoRef] 2).flatten =
      [callNoRef, callRef1, callNoRef] ∧
    hasResultReference callNoRef = false := by
  have hmem : [callNoRef] ∈ (pages [callNoRef, callRef1, callNoRef] 2).drop 1
      := by
    rw [show (pages [callNoRef, callRef1, callNoRef] 2).drop 1 =
      [[callNoRef]] from rfl]
    exact List.mem_singleton.2 rfl
  exact ⟨(pagination_slicing [callNoRef, callRef1, callNoRef] 2 (by decide)
      (by rfl)).1,
    (pagination_slicing [callNoRef, callRef1, callNoRef] 2 (by decide)
      (by rfl)).2 [callNoRef] hmem callNoRef rfl⟩

/-! ## Claim C8: key-set lemmas -/

/-- Membership in the key set after one insertion. -/
theorem mem_insertIfAbsent (l : List Int) (x d : Int) :
    d ∈ insertIfAbsent l x ↔ d ∈ l ∨ d = x := by
  unfold insertIfAbsent
  by_cases hc : l.contains x = true
  · rw [if_pos hc]
    have hx : x ∈ l := List.elem_iff.1 hc
    constructor
    · exact Or.inl
    · rintro (h | rfl)
      · exact h
      · exact hx
  · rw [if_neg hc]
    rw [List.mem_append, List.mem_singleton]

/-- Insertion keeps the key set duplicate-free. -/
theorem nodup_insertIfAbsent (l : List Int) (x : Int) (h : l.Nodup) :
    (insertIfAbsent l x).Nodup := by
  unfold insertIfAbsent
  by_cases hc : l.contains x = true
  · rw [if_pos hc]
    exact h
  · rw [if_neg hc]
    have hx : x ∉ l := by
      intro hm
      have h2 : l.contains x = true := List.elem_iff.2 hm
      exact hc h2
    simp [List.nodup_append, h, hx]

/-- Membership after building the key set of the enumerated dates. -/
theorem mem_foldl_insert :
    ∀ (dates s : List Int) (d : Int),
      d ∈ dates.foldl insertIfAbsent s ↔ d ∈ s ∨ d ∈ dates := by
  intro dates
  induction dates with
  | nil => intro s d; simp
  | cons x xs ih =>
      intro s d
      rw [List.foldl_cons, ih, mem_insertIfAbsent]
      constructor
      · rintro ((h | rfl) | h)
        · exact Or.inl h
        · exact Or.inr (List.mem_cons_self _ _)
        · exact Or.inr (List.mem_cons_of_mem _ h)
      · rintro (h | h)
        · exact Or.inl (Or.inl h)
        · rcases List.mem_cons.1 h with rfl | h
          · exact Or.inl (Or.inr rfl)
          · exact Or.inr h

/-- The built key set is duplicate-free. -/
theorem nodup_foldl_insert :
    ∀ (dates s : List Int), s.Nodup → (dates.foldl insertIfAbsent s).Nodup := by
  intro dates
  induction dates with
  | nil => intro s h; exact h
  | cons x xs ih =>
      intro s h
      rw [List.foldl_cons]
      exact ih _ (nodup_insertIfAbsent s x h)

/-- An override step does not change membership of other dates. -/
theorem overrideStep_mem_other (s : List Int) (kv : Int × Override)
    (d : Int) (hd : d ≠ kv.1) : d ∈ overrideStep s kv ↔ d ∈ s := by
  unfold overrideStep
  by_cases he : kv.2.excluded = true
  · rw [if_pos he]
    simp [List.mem_filter, hd]
  · rw [if_neg he]
    rw [mem_insertIfAbsent]
    constructor
    · rintro (h | rfl)
      · exact h
      · exact absurd rfl hd
    · exact Or.inl

/-- A run of override steps whose keys all differ from `d` does not change
`d`'s membership. -/
theorem fold_overrideStep_mem_other :
    ∀ (l : List (Int × Override)) (s : List Int) (d : Int),
      (∀ kv ∈ l, kv.1 ≠ d) →
      (d ∈ l.foldl overrideStep s ↔ d ∈ s) := by
  intro l
  induction l with
  | nil => intro s d _; rfl
  | cons kv tl ih =>
      intro s d h
      rw [List.foldl_cons,
        ih _ d (fun e he => h e (List.mem_cons_of_mem _ he)),
        overrideStep_mem_other s kv d
          (fun he => h kv (List.mem_cons_self _ _) he.symm)]

/-- Override steps keep the key set duplicate-free. -/
theorem nodup_overrideStep (s : List Int) (kv : Int × Override)
    (h : s.Nodup) : (overrideStep s kv).Nodup := by
  unfold overrideStep
  by_cases he : kv.2.excluded = true
  · rw [if_pos he]
    exact h.filter _
  · rw [if_neg he]
    exact nodup_insertIfAbsent s kv.1 h

/-- A run of override steps keeps the key set duplicate-free. -/
theorem nodup_fold_overrideStep :
    ∀ (l : List (Int × Override)) (s : List Int), s.Nodup →
      (l.foldl overrideStep s).Nodup := by
  intro l
  induction l with
  | nil => intro s h; exact h
  | cons kv tl ih =>
      intro s h
      rw [List.foldl_cons]
      exact ih _ (nodup_overrideStep s kv h)

/-- No entry keyed off `d`: `d` is no RDATE. -/
theorem isRdateId_not_key (l : List (Int × Override)) (d : Int)
    (h : ∀ kv ∈ l, kv.1 ≠ d) : isRdateId l d = false := by
  unfold isRdateId
  rw [List.any_eq_false]
  intro kv hkv
  rw [decide_eq_false (h kv hkv), Bool.false_and]
  exact Bool.false_ne_true

/-- No entry keyed off `d`: `d` is no EXDATE. -/
theorem isExcludedId_not_key (l : List (Int × Override)) (d : Int)
    (h : ∀ kv ∈ l, kv.1 ≠ d) : isExcludedId l d = false := by
  unfold isExcludedId
  rw [List.any_eq_false]
  intro kv hkv
  rw [decide_eq_false (h kv hkv), Bool.false_and]
  exact Bool.false_ne_true

/-- Head unfolding of `isRdateId`. -/
theorem isRdateId_cons (kv : Int × Override) (tl : List (Int × Override))
    (d : Int) :
    isRdateId (kv :: tl) d =
      ((decide (kv.1 = d) && !kv.2.excluded) || isRdateId tl d) := rfl

/-- Head unfolding of `isExcludedId`. -/
theorem isExcludedId_cons (kv : Int × Override) (tl : List (Int × Override))
    (d : Int) :
    isExcludedId (kv :: tl) d =
      ((decide (kv.1 = d) && kv.2.excluded) || isExcludedId tl d) := rfl

/-- Membership after the override pass, for a duplicate-free override key
list: a date survives iff some override adds it back (RDATE), or it was in
the set and no override excludes it. -/
theorem overrides_fold_mem :
    ∀ (l : List (Int × Override)), (l.map Prod.fst).Nodup →
      ∀ (s : List Int) (d : Int),
        (d ∈ l.foldl overrideStep s ↔
          (isRdateId l d = true ∨ (d ∈ s ∧ isExcludedId l d = false))) := by
  intro l
  induction l with
  | nil =>
      intro _ s d
      simp [isRdateId, isExcludedId]
  | cons kv tl ih =>
      intro hnd s d
      rw [List.map_cons, List.nodup_cons] at hnd
      obtain ⟨hk, htl⟩ := hnd
      rw [List.foldl_cons]
      by_cases hd : d = kv.1
      · subst hd
        have hkeys : ∀ e ∈ tl, e.1 ≠ kv.1 := by
          intro e he heq
          exact hk (heq ▸ List.mem_map_of_mem Prod.fst he)
        rw [fold_overrideStep_mem_other tl _ kv.1 hkeys]
        rw [isRdateId_cons, isExcludedId_cons,
          isRdateId_not_key tl kv.1 hkeys, isExcludedId_not_key tl kv.1 hkeys]
        rw [show decide (kv.1 = kv.1) = true from decide_eq_true rfl]
        rw [Bool.true_and, Bool.true_and, Bool.or_false, Bool.or_false]
        unfold overrideStep
        by_cases he : kv.2.excluded = true
        · rw [if_pos he, he]
          simp [List.mem_filter]
        · have hef : kv.2.excluded = false := by
            cases hx : kv.2.excluded
            · rfl
            · exact absurd hx he
          rw [if_neg he, hef]
          rw [mem_insertIfAbsent]
          simp
      · rw [ih htl (overrideStep s kv) d]
        rw [overrideStep_mem_other s kv d hd]
        rw [isRdateId_cons, isExcludedId_cons]
        rw [decide_eq_false (fun heq => hd heq.symm)]
        rw [Bool.false_and, Bool.false_or, Bool.false_and, Bool.false_or]

/-- Claim C8: `allStartDates` returns `[start]` whenever the recurrence
rule has neither `until` nor `count`; for a bounded rule (here: the
occurrence enumeration is handed in sorted and duplicate-free, and the
override keys are distinct) the result is sorted ascending,
duplicate-free, and contains exactly the dates added by non-excluded
overrides (RDATEs, keyed by their original `recurrenceId`) together with
the enumerated occurrences not marked excluded. -/
theorem allStartDates_spec (ev : CalendarEventRec) (rule : RecurrenceRule)
    (hrule : ev.recurrenceRule = some rule) :
    (rule.untilDate = none → rule.count = none →
      allStartDates ev = [ev.start]) ∧
    (∀ (_hb : (rule.untilDate.isNone && !countTruthy rule.count) = false)
      (_hs : List.Sorted (· ≤ ·) (rule.getOccurrences ev.start))
      (_hn : (rule.getOccurrences ev.start).Nodup)
      (_ho : ((ev.recurrenceOverrides.getD []).map Prod.fst).Nodup),
      List.Sorted (· ≤ ·) (allStartDates ev) ∧
      (allStartDates ev).Nodup ∧
      (∀ d, d ∈ allStartDates ev ↔
        (isRdateId (ev.recurrenceOverrides.getD []) d = true ∨
          (d ∈ rule.getOccurrences ev.start ∧
            isExcludedId (ev.recurrenceOverrides.getD []) d = false)))) := by
  constructor
  · intro hu hc
    have hcond : (rule.untilDate.isNone && !countTruthy rule.count) = true := by
      rw [hu, hc]
      rfl
    simp only [allStartDates, hrule]
    rw [if_pos hcond]
  · intro hb hs hn ho
    have hall : allStartDates ev =
        applyOverridesSorted (rule.getOccurrences ev.start)
          ev.recurrenceOverrides := by
      simp only [allStartDates, hrule]
      rw [if_neg (by rw [hb]; exact Bool.false_ne_true)]
    rw [hall]
    cases hovs : ev.recurrenceOverrides with
    | none =>
        rw [hovs] at ho
        simp only [applyOverridesSorted]
        refine ⟨hs, hn, fun d => ?_⟩
        simp [isRdateId, isExcludedId]
    | some l =>
        rw [hovs] at ho
        have hovl : (l.map Prod.fst).Nodup := by simpa using ho
        simp only [applyOverridesSorted]
        have hbase : (l.foldl overrideStep
            ((rule.getOccurrences ev.start).foldl insertIfAbsent
              [])).Nodup :=
          nodup_fold_overrideStep l _
            (nodup_foldl_insert _ [] List.nodup_nil)
        refine ⟨List.sorted_insertionSort (· ≤ ·) _,
          (List.perm_insertionSort (· ≤ ·) _).nodup_iff.2 hbase,
          fun d => ?_⟩
        rw [(List.perm_insertionSort (· ≤ ·) _).mem_iff]
        rw [overrides_fold_mem l hovl _ d]
        rw [mem_foldl_insert]
        simp

/-- Witness for claim C8: the unbounded rule collapses to `[start]`, and
the weekly rule with one EXDATE (at day 7) and one RDATE (at day 100)
yields a sorted, duplicate-free list that contains the RDATE and drops the
EXDATE. -/
theorem allStartDates_spec_witness :
    allStartDates c8Unbounded = [5] ∧
    List.Sorted (· ≤ ·) (allStartDates c8Event) ∧
    (allStartDates c8Event).Nodup ∧
    (100 : Int) ∈ allStartDates c8Event ∧
    allStartDates c8Event = [0, 14, 21, 100] := by
  have h1 := (allStartDates_spec c8Unbounded c8UnboundedRule rfl).1 rfl rfl
  have h2 := (allStartDates_spec c8Event c8Rule rfl).2 (by decide)
    (by decide) (by decide) (by decide)
  exact ⟨h1, h2.1, h2.2.1, (h2.2.2 100).2 (Or.inl (by decide)), by rfl⟩

end JmapJs
